import Mathlib

/-!
# Verification of the `ratlib` HTTP helper and output filter

This file is a shallow embedding, in Lean 4, of the behaviourally relevant
parts of the repository:

* `ratlib/api/http.py` — `urljoin`, the JSON body normalisation performed by
  `call` (`json.dumps` / `json.loads` of the standard library, modelled
  faithfully for data made of `None`, booleans, integers, strings, lists,
  tuples and dicts; floats are outside the model), the dispatch-table
  resolution, the status policy, the logging writes and the error
  classification of `call`.
* `ratlib/sopel.py` — `OutputFilterWrapper.transform`, the two
  case-insensitive regex substitutions applied to outgoing messages.

Python strings are modelled as `List Char`; Python values that can appear in
a JSON request or response body are modelled by the mutual inductive `PyVal`.
All definitions are executable, so every concrete scenario below is settled
by evaluation.
-/

set_option maxRecDepth 10000

namespace Ratlib

/-- Convenience: the list of characters of a Lean string literal, used to
write down concrete Python strings. -/
def pystr (s : String) : List Char := s.data

/-! ## `urljoin` (ratlib/api/http.py, lines 54-80)

The Python generator `_gen` keeps the previously emitted chunk in `prev`
(initially `None`) and, for each non-empty part, decides whether the chunk
boundary already carries exactly one slash, carries two (drop one), or none
(insert one).  `prev` is only ever inspected through `not prev` and
`prev[-1]`, and the only values it takes are `None` and previously processed
chunks (possibly emptied by dropping a leading slash from `"/"`), so a
`List Char` state with `[]` playing the role of `None` is a faithful model. -/

/-- One step stream of the generator `_gen` inside `urljoin`: given the
`prev` state and the remaining parts, produce the list of yielded chunks. -/
def urljoinGen : List Char → List (List Char) → List (List Char)
  | _, [] => []
  | prev, part :: rest =>
    if part = [] then urljoinGen prev rest
    else if prev = [] then part :: urljoinGen part rest
    else if decide (prev.getLast? = some '/') != decide (part.head? = some '/') then
      part :: urljoinGen part rest
    else if part.head? = some '/' then
      part.tail :: urljoinGen part.tail rest
    else
      ['/'] :: part :: urljoinGen part rest

/-- `urljoin(*parts)`: join the chunks yielded by the generator. -/
def urljoin (parts : List (List Char)) : List Char :=
  (urljoinGen [] parts).flatten

/-! ### The specification reading of `urljoin`

The spec promises that adjacent non-empty segments end up separated by
exactly one `/`.  We render that as: drop empty segments, strip the boundary
slashes of every remaining segment, keep the leading slashes of the first
segment and the trailing slashes of the last one, and put exactly one `/`
between consecutive cores. -/

/-- A segment with its leading and trailing runs of slashes removed. -/
def stripCore (s : List Char) : List Char :=
  ((s.dropWhile (· = '/')).reverse.dropWhile (· = '/')).reverse

/-- The URL the spec sentence describes (definition written from the words of
the spec, for comparison with `urljoin`): non-empty segments with their cores
separated by exactly one slash, outer slashes of the first and last segment
preserved. -/
def urljoinClaim (parts : List (List Char)) : List Char :=
  match parts.filter (fun s => !s.isEmpty) with
  | [] => []
  | ps => (ps.headD []).takeWhile (· = '/')
      ++ List.intercalate ['/'] (ps.map stripCore)
      ++ ((ps.getLastD []).reverse.takeWhile (· = '/')).reverse

/-! ### Well-shaped segments

`urljoin` inspects one character on each side of a chunk boundary, so the
spec sentence is accurate exactly for segments carrying at most one slash at
each end and none inside.  `Seg` describes such a segment; an `Option Seg`
with `none` models an empty segment (skipped by the joiner). -/

/-- A well-shaped URL segment: optional single leading slash, a non-slash
core, optional single trailing slash. -/
structure Seg where
  lead : Bool
  core : List Char
  trail : Bool
deriving DecidableEq

/-- The character string of a well-shaped segment. -/
def Seg.chunk (p : Seg) : List Char :=
  (if p.lead then ['/'] else []) ++ p.core ++ (if p.trail then ['/'] else [])

/-- The string of an optional segment (`none` is the empty segment). -/
def segChunk : Option Seg → List Char
  | Option.none => []
  | Option.some p => p.chunk

/-- A well-formed core: non-empty and slash-free. -/
def Seg.okCore (p : Seg) : Prop := p.core ≠ [] ∧ '/' ∉ p.core

instance (p : Seg) : Decidable p.okCore := by
  unfold Seg.okCore; infer_instance

/-- Text produced after the first segment has been emitted: each later core
is preceded by exactly one slash (either inherited from the previous
trailing slash or inserted), and the final trailing slash survives. -/
def specRest : Bool → List Seg → List Char
  | t, [] => if t then ['/'] else []
  | _, p :: rest => '/' :: (p.core ++ specRest p.trail rest)

/-- The join the amended claim promises for well-shaped segments. -/
def specJoin : List Seg → List Char
  | [] => []
  | p :: rest => (if p.lead then ['/'] else []) ++ p.core ++ specRest p.trail rest

/-- Chunks contributed by the generator after the first segment, given
whether the previously emitted chunk ends in a slash. -/
def gains : Bool → List Seg → List Char
  | _, [] => []
  | b, p :: rest =>
      (if b then [] else ['/']) ++ p.core ++ (if p.trail then ['/'] else [])
        ++ gains p.trail rest

theorem gains_spec (rest : List Seg) :
    ∀ t, (if t then ['/'] else []) ++ gains t rest = specRest t rest := by
  induction rest with
  | nil => intro t; cases t <;> simp [gains, specRest]
  | cons p rest ih =>
      intro t
      cases t <;> simp only [gains, specRest, if_true, if_false] <;>
        rw [← ih p.trail] <;> cases p.trail <;> simp

theorem chunk_ne_nil {p : Seg} (h : p.okCore) : p.chunk ≠ [] := by
  obtain ⟨c, cs, hc⟩ := List.exists_cons_of_ne_nil h.1
  cases hl : p.lead <;> simp [Seg.chunk, hl, hc]

/-- The last character of `core ++ trail` is a slash exactly when the
trailing flag is set. -/
theorem coreTrail_getLast {p : Seg} (h : p.okCore) :
    ((p.core ++ if p.trail then ['/'] else []).getLast? = some '/')
      ↔ (p.trail = true) := by
  cases ht : p.trail
  · have hmem : (p.core.getLast (h.1)) ∈ p.core := List.getLast_mem h.1
    have hne : p.core.getLast (h.1) ≠ '/' := fun hx => h.2 (hx ▸ hmem)
    simp [List.getLast?_eq_getLast p.core h.1, hne]
  · simp [List.getLast?_concat]

theorem coreTrail_ne_nil {p : Seg} (h : p.okCore) :
    (p.core ++ if p.trail then ['/'] else []) ≠ [] := by
  obtain ⟨c, cs, hc⟩ := List.exists_cons_of_ne_nil h.1
  cases p.trail <;> simp [hc]

/-- The last character of a well-shaped chunk is a slash exactly when the
trailing flag is set. -/
theorem chunk_getLast {p : Seg} (h : p.okCore) :
    (p.chunk.getLast? = some '/') ↔ (p.trail = true) := by
  obtain ⟨c, cs, hc⟩ := List.exists_cons_of_ne_nil h.1
  cases hl : p.lead
  · have : p.chunk = p.core ++ if p.trail then ['/'] else [] := by
      simp [Seg.chunk, hl]
    rw [this]; exact coreTrail_getLast h
  · have : p.chunk = '/' :: (c :: (cs ++ if p.trail then ['/'] else [])) := by
      simp [Seg.chunk, hl, hc]
    rw [this, List.getLast?_cons_cons]
    have : c :: (cs ++ if p.trail then ['/'] else [])
        = p.core ++ if p.trail then ['/'] else [] := by simp [hc]
    rw [this]; exact coreTrail_getLast h

/-! ### Generator step lemmas (one per branch of `_gen`) -/

theorem urljoinGen_skip (prev : List Char) (rest : List (List Char)) :
    urljoinGen prev ([] :: rest) = urljoinGen prev rest := by
  simp [urljoinGen]

theorem urljoinGen_first (part : List Char) (rest : List (List Char))
    (h : part ≠ []) :
    urljoinGen [] (part :: rest) = part :: urljoinGen part rest := by
  simp [urljoinGen, h]

theorem urljoinGen_one (prev part : List Char) (rest : List (List Char))
    (hpart : part ≠ []) (hprev : prev ≠ [])
    (hx : (prev.getLast? = some '/') ≠ (part.head? = some '/')) :
    urljoinGen prev (part :: rest) = part :: urljoinGen part rest := by
  have hb : (decide (prev.getLast? = some '/') != decide (part.head? = some '/')) = true := by
    by_cases h1 : prev.getLast? = some '/' <;> by_cases h2 : part.head? = some '/' <;>
      simp [h1, h2] at hx ⊢
  simp [urljoinGen, hpart, hprev, hb]

theorem urljoinGen_two (prev part : List Char) (rest : List (List Char))
    (hpart : part ≠ []) (hprev : prev ≠ [])
    (hlast : prev.getLast? = some '/') (hhead : part.head? = some '/') :
    urljoinGen prev (part :: rest) = part.tail :: urljoinGen part.tail rest := by
  simp [urljoinGen, hpart, hprev, hlast, hhead]

theorem urljoinGen_zero (prev part : List Char) (rest : List (List Char))
    (hpart : part ≠ []) (hprev : prev ≠ [])
    (hlast : prev.getLast? ≠ some '/') (hhead : part.head? ≠ some '/') :
    urljoinGen prev (part :: rest) = ['/'] :: part :: urljoinGen part rest := by
  simp [urljoinGen, hpart, hprev, hlast, hhead]

/-- Main invariant lemma: once some chunk has been emitted, the generator
contributes exactly the `gains` text, keyed by whether the previously
emitted chunk ends in a slash. -/
theorem urljoinGen_gains (ps : List (Option Seg)) :
    ∀ (prev : List Char) (b : Bool),
      (∀ p ∈ ps.reduceOption, p.okCore) →
      prev ≠ [] →
      ((prev.getLast? = some '/') ↔ (b = true)) →
      (urljoinGen prev (ps.map segChunk)).flatten = gains b ps.reduceOption := by
  induction ps with
  | nil => intro prev b _ _ _; simp [urljoinGen, gains]
  | cons q rest ih =>
      intro prev b hok hne hlast
      cases q with
      | none =>
          rw [List.map_cons, show segChunk Option.none = [] from rfl,
            urljoinGen_skip, List.reduceOption_cons_of_none]
          exact ih prev b (by simpa using hok) hne hlast
      | some p =>
          rw [List.reduceOption_cons_of_some] at hok ⊢
          have hp : p.okCore := hok p (List.mem_cons_self p _)
          have hrest : ∀ x ∈ rest.reduceOption, x.okCore := fun x hx =>
            hok x (List.mem_cons_of_mem _ hx)
          obtain ⟨c, cs, hc⟩ := List.exists_cons_of_ne_nil hp.1
          have hchne : segChunk (Option.some p) ≠ [] := chunk_ne_nil hp
          have hcgl : ((segChunk (Option.some p)).getLast? = some '/') ↔ (p.trail = true) :=
            chunk_getLast hp
          rw [List.map_cons]
          cases hb : b with
          | true =>
              have hpl : prev.getLast? = some '/' := hlast.mpr hb
              cases hl : p.lead with
              | true =>
                  -- double slash at the boundary: the leading one is dropped
                  have hchunk : segChunk (Option.some p)
                      = '/' :: (p.core ++ if p.trail then ['/'] else []) := by
                    simp [segChunk, Seg.chunk, hl]
                  have hhead : (segChunk (Option.some p)).head? = some '/' := by
                    rw [hchunk]; rfl
                  rw [urljoinGen_two _ _ _ hchne hne hpl hhead, List.flatten_cons, hchunk]
                  simp only [List.tail_cons]
                  rw [ih _ p.trail hrest (coreTrail_ne_nil hp) (coreTrail_getLast hp)]
                  simp [gains]
              | false =>
                  -- exactly one slash: previous trailing slash
                  have hchunk : segChunk (Option.some p)
                      = p.core ++ if p.trail then ['/'] else [] := by
                    simp [segChunk, Seg.chunk, hl]
                  have hcmem : c ∈ p.core := by
                    rw [hc]; exact List.mem_cons_self c cs
                  have hhead : (segChunk (Option.some p)).head? ≠ some '/' := by
                    rw [hchunk, hc]
                    intro hx
                    simp only [List.cons_append, List.head?_cons, Option.some.injEq] at hx
                    exact hp.2 (hx ▸ hcmem)
                  rw [urljoinGen_one _ _ _ hchne hne (by simp [hpl, hhead, eq_iff_iff]),
                    List.flatten_cons, hchunk]
                  rw [ih _ p.trail hrest (coreTrail_ne_nil hp) (coreTrail_getLast hp)]
                  simp [gains]
          | false =>
              have hpl : prev.getLast? ≠ some '/' := fun hx => by
                have h2 := hlast.mp hx
                rw [hb] at h2
                exact Bool.noConfusion h2
              cases hl : p.lead with
              | true =>
                  -- exactly one slash: leading slash of the new segment
                  have hchunk : segChunk (Option.some p)
                      = '/' :: (p.core ++ if p.trail then ['/'] else []) := by
                    simp [segChunk, Seg.chunk, hl]
                  have hhead : (segChunk (Option.some p)).head? = some '/' := by
                    rw [hchunk]; rfl
                  rw [urljoinGen_one _ _ _ hchne hne (by simp [hpl, hhead, eq_iff_iff]),
                    List.flatten_cons]
                  rw [ih _ p.trail hrest hchne hcgl, hchunk]
                  simp [gains]
              | false =>
                  -- no slash at the boundary: insert one
                  have hchunk : segChunk (Option.some p)
                      = p.core ++ if p.trail then ['/'] else [] := by
                    simp [segChunk, Seg.chunk, hl]
                  have hcmem : c ∈ p.core := by
                    rw [hc]; exact List.mem_cons_self c cs
                  have hhead : (segChunk (Option.some p)).head? ≠ some '/' := by
                    rw [hchunk, hc]
                    intro hx
                    simp only [List.cons_append, List.head?_cons, Option.some.injEq] at hx
                    exact hp.2 (hx ▸ hcmem)
                  rw [urljoinGen_zero _ _ _ hchne hne hpl hhead, List.flatten_cons,
                    List.flatten_cons]
                  rw [ih _ p.trail hrest hchne hcgl, hchunk]
                  simp [gains]

/-- `urljoin` on well-shaped segments: the first chunk is emitted verbatim
and the rest contributes `gains`, which equals the promised single-slash
join. -/
theorem urljoin_wellShaped (ps : List (Option Seg))
    (h : ∀ p ∈ ps.reduceOption, p.okCore) :
    urljoin (ps.map segChunk) = specJoin ps.reduceOption := by
  induction ps with
  | nil => rfl
  | cons q rest ih =>
      cases q with
      | none =>
          rw [List.map_cons, show segChunk Option.none = [] from rfl]
          show (urljoinGen [] ([] :: rest.map segChunk)).flatten = _
          rw [urljoinGen_skip, List.reduceOption_cons_of_none]
          exact ih (by simpa using h)
      | some p =>
          rw [List.reduceOption_cons_of_some] at h ⊢
          have hp : p.okCore := h p (List.mem_cons_self p _)
          have hrest : ∀ x ∈ rest.reduceOption, x.okCore := fun x hx =>
            h x (List.mem_cons_of_mem _ hx)
          have hchne : segChunk (Option.some p) ≠ [] := chunk_ne_nil hp
          show (urljoinGen [] (segChunk (Option.some p) :: rest.map segChunk)).flatten = _
          rw [urljoinGen_first _ _ hchne, List.flatten_cons,
            urljoinGen_gains rest _ p.trail hrest hchne (chunk_getLast hp)]
          show p.chunk ++ _ = _
          have hg := gains_spec rest.reduceOption p.trail
          cases ht : p.trail <;> rw [ht] at hg <;>
            simp only [Seg.chunk, specJoin, ht, if_true, if_false] <;>
            rw [← hg] <;> simp

/-! ### Claim C2 and C9 -/

/-- C2, counterexample.  The claim quantifies over arbitrary strings, but
`urljoin` only inspects one character on each side of a boundary: joining
the non-empty segments `"a//"` and `"b"` yields `"a//b"`, in which the two
segments are separated by two slashes, not the single-slash join the spec
sentence describes (`urljoinClaim` renders that reading). -/
theorem C2_counterexample :
    urljoin [pystr "a//", pystr "b"] = pystr "a//b" ∧
    urljoinClaim [pystr "a//", pystr "b"] = pystr "a/b" ∧
    urljoin [pystr "a//", pystr "b"] ≠ urljoinClaim [pystr "a//", pystr "b"] := by
  decide

/-- C2 (amended): for every ordered sequence of segments in which each
non-empty segment carries at most one leading slash, at most one trailing
slash, and a non-empty slash-free core, `urljoin` returns the single URL in
which adjacent non-empty segments are separated by exactly one `/` (cores
joined by single slashes, the leading slash of the first and the trailing
slash of the last segment preserved), with empty segments skipped. -/
theorem C2_urljoin_amended (ps : List (Option Seg))
    (h : ∀ p ∈ ps.reduceOption, p.okCore) :
    urljoin (ps.map segChunk) = specJoin ps.reduceOption :=
  urljoin_wellShaped ps h

/-- Witness for C2: the segments `"a/"`, `""`, `"/b"` joined to `"a/b"`. -/
theorem C2_urljoin_amended_witness :
    urljoin ([Option.some ⟨false, pystr "a", true⟩, Option.none,
      Option.some ⟨true, pystr "b", false⟩].map segChunk) = pystr "a/b" := by
  rw [C2_urljoin_amended _ (by decide)]
  decide

/-- C9: the concrete `urljoin` examples of the spec, all confirmed. -/
theorem C9_urljoin_examples :
    urljoin [] = pystr "" ∧
    urljoin [pystr "a", pystr "b"] = pystr "a/b" ∧
    urljoin [pystr "a/", pystr "b"] = pystr "a/b" ∧
    urljoin [pystr "a/", pystr "/b"] = pystr "a/b" ∧
    urljoin [pystr "a", pystr "/b"] = pystr "a/b" ∧
    urljoin [pystr "a", pystr "", pystr "b"] = pystr "a/b" := by
  decide

/-! ## Python values (the JSON-relevant fragment)

`call` manipulates Python objects produced by `json.loads` and supplied by
callers: `None`, booleans, integers, strings, lists, tuples and dicts.
`PyVal` models exactly that fragment (floats are outside the model; no
claim involves them).  Dicts are association lists in insertion order, as
Python dicts are; `json.loads` builds them with Python dict insertion
semantics (`PyDict.pyInsert` below). -/

mutual
inductive PyVal where
  | none : PyVal
  | bool (b : Bool) : PyVal
  | int (n : Int) : PyVal
  | str (s : List Char) : PyVal
  | list (xs : PyList) : PyVal
  | tuple (xs : PyList) : PyVal
  | dict (kvs : PyDict) : PyVal
deriving DecidableEq
inductive PyList where
  | nil : PyList
  | cons (v : PyVal) (rest : PyList) : PyList
deriving DecidableEq
inductive PyDict where
  | nil : PyDict
  | cons (k : PyVal) (v : PyVal) (rest : PyDict) : PyDict
deriving DecidableEq
end

/-- The opening brace character (written by code point to keep every brace
in this file paired). -/
def lbrace : Char := Char.ofNat 123

/-- The closing brace character. -/
def rbrace : Char := Char.ofNat 125

/-- The apostrophe character. -/
def apos : Char := Char.ofNat 39

def PyList.isNil : PyList → Bool
  | .nil => true
  | .cons _ _ => false

def PyDict.isNil : PyDict → Bool
  | .nil => true
  | .cons _ _ _ => false

def PyList.length : PyList → Nat
  | .nil => 0
  | .cons _ rest => rest.length + 1

/-- Python truthiness (`bool(x)`) on the modelled fragment. -/
def PyVal.truthy : PyVal → Bool
  | .none => false
  | .bool b => b
  | .int n => decide (n ≠ 0)
  | .str s => decide (s ≠ [])
  | .list xs => !xs.isNil
  | .tuple xs => !xs.isNil
  | .dict kvs => !kvs.isNil

mutual
/-- Python equality (`==`) on the modelled fragment.  Booleans compare equal
to the integers 0/1, as in Python; dicts are compared entrywise in order
(Python compares them as unordered maps, but every comparison this file
performs has a string or integer on one side, where the two notions
agree). -/
def pyEq : PyVal → PyVal → Bool
  | .none, .none => true
  | .bool a, .bool b => a == b
  | .bool a, .int n => (if a then (1 : Int) else 0) == n
  | .int n, .bool a => n == (if a then (1 : Int) else 0)
  | .int m, .int n => m == n
  | .str a, .str b => a == b
  | .list a, .list b => pyEqList a b
  | .tuple a, .tuple b => pyEqList a b
  | .dict a, .dict b => pyEqDict a b
  | _, _ => false
def pyEqList : PyList → PyList → Bool
  | .nil, .nil => true
  | .cons a as, .cons b bs => pyEq a b && pyEqList as bs
  | _, _ => false
def pyEqDict : PyDict → PyDict → Bool
  | .nil, .nil => true
  | .cons k v rest, .cons k2 v2 rest2 => pyEq k k2 && pyEq v v2 && pyEqDict rest rest2
  | _, _ => false
end

/-- Dict lookup: value of the first key comparing `==` to the probe. -/
def PyDict.lookup : PyDict → PyVal → Option PyVal
  | .nil, _ => Option.none
  | .cons k v rest, key => if pyEq k key then Option.some v else rest.lookup key

/-- `key in d` for a dict. -/
def PyDict.hasKey (d : PyDict) (key : PyVal) : Bool := (d.lookup key).isSome

/-- Python dict insertion: overwrite the value of an existing `==`-equal key
in place (keeping its position), otherwise append at the end. -/
def PyDict.pyInsert : PyDict → PyVal → PyVal → PyDict
  | .nil, k, v => .cons k v .nil
  | .cons k0 v0 rest, k, v =>
      if pyEq k0 k then .cons k0 v rest else .cons k0 v0 (rest.pyInsert k v)

/-- The Python exceptions (outside the `ratlib` taxonomy) that the modelled
code can raise. -/
inductive PyExc where
  | typeError
  | valueError
  | indexError
  | keyError
  | attributeError
deriving DecidableEq

/-- Membership of a value in a list/tuple (`x in xs`, via `==`). -/
def pyMemList : PyList → PyVal → Bool
  | .nil, _ => false
  | .cons v rest, x => pyEq v x || pyMemList rest x

def listPrefixB : List Char → List Char → Bool
  | [], _ => true
  | _ :: _, [] => false
  | c :: cs, d :: ds => c == d && listPrefixB cs ds

/-- Python substring test (`needle in haystack` for strings). -/
def strContainsB (needle : List Char) : List Char → Bool
  | [] => needle.isEmpty
  | hay@(_ :: rest) => listPrefixB needle hay || strContainsB needle rest

/-- The Python `in` operator as used by `call` (`'errors' in result`,
`'data' not in result`): key test on dicts, membership on lists/tuples,
substring test on strings, `TypeError` otherwise. -/
def pyContains (container x : PyVal) : Except PyExc Bool :=
  match container with
  | .dict kvs => .ok (kvs.hasKey x)
  | .list xs => .ok (pyMemList xs x)
  | .tuple xs => .ok (pyMemList xs x)
  | .str s =>
      match x with
      | .str n => .ok (strContainsB n s)
      | _ => .error .typeError
  | _ => .error .typeError

/-- A value usable as a sequence index (integers and booleans). -/
def pyIndexInt : PyVal → Option Int
  | .int n => Option.some n
  | .bool b => Option.some (if b then 1 else 0)
  | _ => Option.none

def PyList.get : PyList → Nat → Option PyVal
  | .nil, _ => Option.none
  | .cons v _, 0 => Option.some v
  | .cons _ rest, n + 1 => rest.get n

/-- Indexing a list/tuple with a Python index (negative indices count from
the end). -/
def pySeqIndex (xs : PyList) (key : PyVal) : Except PyExc PyVal :=
  match pyIndexInt key with
  | Option.none => .error .typeError
  | Option.some n =>
      let i := if n < 0 then n + (xs.length : Int) else n
      if i < 0 then .error .indexError
      else
        match xs.get i.toNat with
        | Option.some v => .ok v
        | Option.none => .error .indexError

/-- Python subscription `container[key]` as used by `result['errors'][0]`. -/
def pySubscript (container key : PyVal) : Except PyExc PyVal :=
  match container with
  | .dict kvs =>
      match kvs.lookup key with
      | Option.some v => .ok v
      | Option.none => .error .keyError
  | .list xs => pySeqIndex xs key
  | .tuple xs => pySeqIndex xs key
  | .str s =>
      match pyIndexInt key with
      | Option.none => .error .typeError
      | Option.some n =>
          let i := if n < 0 then n + (s.length : Int) else n
          if i < 0 then .error .indexError
          else
            match s.get? i.toNat with
            | Option.some c => .ok (.str [c])
            | Option.none => .error .indexError
  | _ => .error .typeError

/-- The `err.get(k)` call of `call`: Python `dict.get` with default `None`;
any non-dict first entry raises `AttributeError` instead. -/
def pyDictGet (v : PyVal) (key : PyVal) : Except PyExc PyVal :=
  match v with
  | .dict kvs =>
      .ok (match kvs.lookup key with
        | Option.some x => x
        | Option.none => .none)
  | _ => .error .attributeError

/-! ## `json.dumps` (standard library), as invoked by `call`

`call` uses `json.dumps(data)` with default options: `ensure_ascii=True`
(every character outside the printable ASCII range is written as a `\uXXXX`
escape, astral characters as a surrogate pair), separators `", "` and
`": "`, no key sorting.  Non-string dict keys of type int/bool/None are
coerced to their string form; other key types raise `TypeError`
(`Option.none` here). -/

/-- Decimal digit character. -/
def digitChar : Nat → Char
  | 0 => '0' | 1 => '1' | 2 => '2' | 3 => '3' | 4 => '4'
  | 5 => '5' | 6 => '6' | 7 => '7' | 8 => '8' | _ => '9'

/-- Division loop of the decimal printer; the first argument is structural
fuel (`n` itself is always enough, since `n / 10` shrinks faster). -/
def natReprGo : Nat → Nat → List Char
  | 0, n => [digitChar n]
  | fuel + 1, n =>
      if n < 10 then [digitChar n]
      else natReprGo fuel (n / 10) ++ [digitChar (n % 10)]

/-- Decimal representation of a natural number, no leading zeros. -/
def natRepr (n : Nat) : List Char := natReprGo n n

theorem natReprGo_stable :
    ∀ fuel fuel' n, n ≤ fuel → n ≤ fuel' → natReprGo fuel n = natReprGo fuel' n := by
  intro fuel
  induction fuel with
  | zero =>
      intro fuel' n h _
      have hn : n = 0 := by omega
      subst hn
      cases fuel' <;> simp [natReprGo]
  | succ f ih =>
      intro fuel' n h h'
      cases fuel' with
      | zero =>
          have hn : n = 0 := by omega
          subst hn
          simp [natReprGo]
      | succ f' =>
          simp only [natReprGo]
          by_cases hn : n < 10
          · rw [if_pos hn, if_pos hn]
          · rw [if_neg hn, if_neg hn, ih f' (n / 10) (by omega) (by omega)]

/-- The one-step unfolding of `natRepr`, fuel eliminated. -/
theorem natRepr_eq (n : Nat) :
    natRepr n = if n < 10 then [digitChar n]
      else natRepr (n / 10) ++ [digitChar (n % 10)] := by
  unfold natRepr
  cases n with
  | zero => simp [natReprGo]
  | succ m =>
      show (if m + 1 < 10 then [digitChar (m + 1)]
        else natReprGo m ((m + 1) / 10) ++ [digitChar ((m + 1) % 10)]) = _
      by_cases h : m + 1 < 10
      · rw [if_pos h, if_pos h]
      · rw [if_neg h, if_neg h,
          natReprGo_stable m ((m + 1) / 10) ((m + 1) / 10) (by omega) le_rfl]

/-- Python `repr` of an integer. -/
def intRepr (n : Int) : List Char :=
  if n < 0 then '-' :: natRepr (-n).toNat else natRepr n.toNat

/-- Lower-case hexadecimal digit character. -/
def hexDigitChar : Nat → Char
  | 0 => '0' | 1 => '1' | 2 => '2' | 3 => '3' | 4 => '4'
  | 5 => '5' | 6 => '6' | 7 => '7' | 8 => '8' | 9 => '9'
  | 10 => 'a' | 11 => 'b' | 12 => 'c' | 13 => 'd' | 14 => 'e' | _ => 'f'

/-- Four-digit hexadecimal form used in `\uXXXX` escapes. -/
def toHex4 (n : Nat) : List Char :=
  [hexDigitChar (n / 4096 % 16), hexDigitChar (n / 256 % 16),
   hexDigitChar (n / 16 % 16), hexDigitChar (n % 16)]

/-- Backspace character (`\b`). -/
def bsChar : Char := Char.ofNat 8

/-- Form-feed character (`\f`). -/
def ffChar : Char := Char.ofNat 12

/-- JSON escape of one character under `ensure_ascii=True`: the two
mandatory escapes, the five short control escapes, `\uXXXX` for every other
character outside `0x20`–`0x7e`, and a surrogate pair beyond the BMP. -/
def escChar (c : Char) : List Char :=
  if c = '"' then ['\\', '"']
  else if c = '\\' then ['\\', '\\']
  else if c = '\n' then ['\\', 'n']
  else if c = '\r' then ['\\', 'r']
  else if c = '\t' then ['\\', 't']
  else if c = bsChar then ['\\', 'b']
  else if c = ffChar then ['\\', 'f']
  else if c.toNat < 0x20 ∨ 0x7f ≤ c.toNat then
    if c.toNat < 0x10000 then '\\' :: 'u' :: toHex4 c.toNat
    else
      let k := c.toNat - 0x10000
      ('\\' :: 'u' :: toHex4 (0xD800 + k / 1024))
        ++ ('\\' :: 'u' :: toHex4 (0xDC00 + k % 1024))
  else [c]

/-- JSON string literal for a character list. -/
def escStr (s : List Char) : List Char := '"' :: s.flatMap escChar ++ ['"']

/-- Serialisation of a dict key: strings as-is, int/bool/None coerced to
their textual form; other types are not serialisable as keys. -/
def dumpsKey : PyVal → Option (List Char)
  | .str s => Option.some (escStr s)
  | .int n => Option.some (escStr (intRepr n))
  | .bool b => Option.some (escStr (if b then pystr "true" else pystr "false"))
  | .none => Option.some (escStr (pystr "null"))
  | _ => Option.none

mutual
/-- `json.dumps` with its `call`-site defaults. -/
def dumpsVal : PyVal → Option (List Char)
  | .none => Option.some (pystr "null")
  | .bool b => Option.some (if b then pystr "true" else pystr "false")
  | .int n => Option.some (intRepr n)
  | .str s => Option.some (escStr s)
  | .list xs => (dumpsElems xs).map (fun e => '[' :: e ++ [']'])
  | .tuple xs => (dumpsElems xs).map (fun e => '[' :: e ++ [']'])
  | .dict kvs => (dumpsMembers kvs).map (fun e => lbrace :: e ++ [rbrace])
/-- Array elements joined by the default item separator `", "`. -/
def dumpsElems : PyList → Option (List Char)
  | .nil => Option.some []
  | .cons v .nil => dumpsVal v
  | .cons v rest =>
      match dumpsVal v, dumpsElems rest with
      | Option.some dv, Option.some dr => Option.some (dv ++ ',' :: ' ' :: dr)
      | _, _ => Option.none
/-- Object members `key: value` joined by `", "`. -/
def dumpsMembers : PyDict → Option (List Char)
  | .nil => Option.some []
  | .cons k v .nil =>
      match dumpsKey k, dumpsVal v with
      | Option.some dk, Option.some dv => Option.some (dk ++ ':' :: ' ' :: dv)
      | _, _ => Option.none
  | .cons k v rest =>
      match dumpsKey k, dumpsVal v, dumpsMembers rest with
      | Option.some dk, Option.some dv, Option.some dr =>
          Option.some (dk ++ ':' :: ' ' :: dv ++ ',' :: ' ' :: dr)
      | _, _, _ => Option.none
end

/-! ## `json.loads` (standard library), as invoked by `call`

A recursive-descent parser over `List Char`, modelling `json.loads` on the
integer/string/bool/null/array/object fragment (numbers with a fraction or
exponent are outside the model, as floats are).  `Option.none` models
`ValueError` (`json.JSONDecodeError`).  Objects are built with Python dict
insertion semantics: textual order of first key occurrence, later duplicate
keys overwrite the value in place. -/

/-- JSON whitespace. -/
def isJsonWs (c : Char) : Bool := c = ' ' || c = '\t' || c = '\n' || c = '\r'

def skipWs : List Char → List Char
  | [] => []
  | c :: rest => if isJsonWs c then skipWs rest else c :: rest

/-- Value of a hexadecimal digit (both cases accepted, as in `json`). -/
def hexVal : Char → Option Nat
  | '0' => Option.some 0 | '1' => Option.some 1 | '2' => Option.some 2
  | '3' => Option.some 3 | '4' => Option.some 4 | '5' => Option.some 5
  | '6' => Option.some 6 | '7' => Option.some 7 | '8' => Option.some 8
  | '9' => Option.some 9
  | 'a' => Option.some 10 | 'b' => Option.some 11 | 'c' => Option.some 12
  | 'd' => Option.some 13 | 'e' => Option.some 14 | 'f' => Option.some 15
  | 'A' => Option.some 10 | 'B' => Option.some 11 | 'C' => Option.some 12
  | 'D' => Option.some 13 | 'E' => Option.some 14 | 'F' => Option.some 15
  | _ => Option.none

/-- Decode four hex digits. -/
def decodeHex4 (a b c d : Char) : Option Nat :=
  match hexVal a, hexVal b, hexVal c, hexVal d with
  | Option.some x, Option.some y, Option.some z, Option.some w =>
      Option.some (4096 * x + 256 * y + 16 * z + w)
  | _, _, _, _ => Option.none

/-- Decoded character of a single-character escape sequence. -/
def escCode (e : Char) : Option Char :=
  if e = '"' then Option.some '"'
  else if e = '\\' then Option.some '\\'
  else if e = '/' then Option.some '/'
  else if e = 'b' then Option.some bsChar
  else if e = 'f' then Option.some ffChar
  else if e = 'n' then Option.some '\n'
  else if e = 'r' then Option.some '\r'
  else if e = 't' then Option.some '\t'
  else Option.none

mutual
/-- Parse the body of a JSON string literal (the opening quote already
consumed), returning the decoded characters and the rest of the input.
Surrogate pairs are combined; lone surrogates (which CPython would accept)
are unrepresentable in `Char` and fall outside the model. -/
def parseJStr : List Char → Option (List Char × List Char)
  | [] => Option.none
  | c :: rest =>
      if c = '"' then Option.some ([], rest)
      else if c = '\\' then parseEscS rest
      else if c.toNat < 0x20 then Option.none
      else (parseJStr rest).map (fun p => (c :: p.1, p.2))
/-- Continue after a backslash. -/
def parseEscS : List Char → Option (List Char × List Char)
  | [] => Option.none
  | e :: r =>
      if e = 'u' then parseEscU r
      else
        match escCode e with
        | Option.some ch => (parseJStr r).map (fun p => (ch :: p.1, p.2))
        | Option.none => Option.none
/-- Continue after a `\u`. -/
def parseEscU : List Char → Option (List Char × List Char)
  | a :: b :: c2 :: d :: r2 =>
      (match decodeHex4 a b c2 d with
        | Option.none => Option.none
        | Option.some n =>
          if 0xD800 ≤ n ∧ n < 0xDC00 then parseEscP n r2
          else if 0xDC00 ≤ n ∧ n < 0xE000 then Option.none
          else (parseJStr r2).map (fun p => (Char.ofNat n :: p.1, p.2)))
  | _ => Option.none
/-- Continue after a high surrogate `\uXXXX`: expect the low half. -/
def parseEscP (n : Nat) : List Char → Option (List Char × List Char)
  | x :: y :: a2 :: b2 :: c3 :: d2 :: r3 =>
      if x = '\\' ∧ y = 'u' then
        match decodeHex4 a2 b2 c3 d2 with
        | Option.some m =>
            if 0xDC00 ≤ m ∧ m < 0xE000 then
              (parseJStr r3).map (fun p =>
                (Char.ofNat (0x10000 + (n - 0xD800) * 1024 + (m - 0xDC00)) :: p.1, p.2))
            else Option.none
        | Option.none => Option.none
      else Option.none
  | _ => Option.none
end

/-- Parse an unsigned decimal integer (leading zeros rejected, fraction or
exponent markers outside the model). -/
def parseNatNum (s : List Char) : Option (Nat × List Char) :=
  if s.takeWhile Char.isDigit = [] then Option.none
  else if (s.takeWhile Char.isDigit).headD '0' = '0'
      ∧ (s.takeWhile Char.isDigit).length > 1 then Option.none
  else if (s.dropWhile Char.isDigit).head? = some '.'
      ∨ (s.dropWhile Char.isDigit).head? = some 'e'
      ∨ (s.dropWhile Char.isDigit).head? = some 'E' then Option.none
  else
    Option.some
      ((s.takeWhile Char.isDigit).foldl (fun a c => 10 * a + (c.toNat - 48)) 0,
        s.dropWhile Char.isDigit)

/-- Parse a JSON number (integer fragment). -/
def parseNum : List Char → Option (PyVal × List Char)
  | [] => Option.none
  | c :: rest =>
      if c = '-' then (parseNatNum rest).map (fun p => (.int (-(p.1 : Int)), p.2))
      else (parseNatNum (c :: rest)).map (fun p => (.int (p.1 : Int), p.2))

/-- Left-to-right Python insertion of all entries of `src` into `acc`. -/
def PyDict.pyInsertAll (acc : PyDict) : PyDict → PyDict
  | .nil => acc
  | .cons k v rest => (acc.pyInsert k v).pyInsertAll rest

mutual
/-- Fueled JSON value parser.  The fuel only bounds nesting; `loads` passes
`length + 1`, which the fuel lemmas below show is always enough. -/
def parseVal : Nat → List Char → Option (PyVal × List Char)
  | 0, _ => Option.none
  | fuel + 1, s =>
      match skipWs s with
      | [] => Option.none
      | c :: r =>
          if c = '[' then
            match skipWs r with
            | c2 :: r2 =>
                if c2 = ']' then Option.some (.list .nil, r2)
                else (parseElems fuel (c2 :: r2)).map (fun p => (.list p.1, p.2))
            | [] => Option.none
          else if c = '"' then (parseJStr r).map (fun p => (.str p.1, p.2))
          else if c = lbrace then
            match skipWs r with
            | c2 :: r2 =>
                if c2 = rbrace then Option.some (.dict .nil, r2)
                else
                  (parseMembers fuel (c2 :: r2)).map
                    (fun p => (.dict (PyDict.pyInsertAll .nil p.1), p.2))
            | [] => Option.none
          else if c = 't' then
            match r with
            | 'r' :: 'u' :: 'e' :: r2 => Option.some (.bool true, r2)
            | _ => Option.none
          else if c = 'f' then
            match r with
            | 'a' :: 'l' :: 's' :: 'e' :: r2 => Option.some (.bool false, r2)
            | _ => Option.none
          else if c = 'n' then
            match r with
            | 'u' :: 'l' :: 'l' :: r2 => Option.some (.none, r2)
            | _ => Option.none
          else parseNum (c :: r)
/-- Parse one or more comma-separated array elements and the closing
bracket. -/
def parseElems : Nat → List Char → Option (PyList × List Char)
  | 0, _ => Option.none
  | fuel + 1, s =>
      match parseVal fuel s with
      | Option.none => Option.none
      | Option.some (v, r) =>
          match skipWs r with
          | ',' :: r2 => (parseElems fuel r2).map (fun p => (.cons v p.1, p.2))
          | ']' :: r2 => Option.some (.cons v .nil, r2)
          | _ => Option.none
/-- Parse one or more `"key": value` members and the closing brace,
returning the members in textual order (duplicates included; the caller
applies Python dict insertion semantics). -/
def parseMembers : Nat → List Char → Option (PyDict × List Char)
  | 0, _ => Option.none
  | fuel + 1, s =>
      match skipWs s with
      | '"' :: r =>
          (match parseJStr r with
            | Option.none => Option.none
            | Option.some (k, r2) =>
              match skipWs r2 with
              | ':' :: r3 =>
                  (match parseVal fuel r3 with
                    | Option.none => Option.none
                    | Option.some (v, r4) =>
                      match skipWs r4 with
                      | ',' :: r5 =>
                          (parseMembers fuel r5).map
                            (fun p => (PyDict.cons (.str k) v p.1, p.2))
                      | c :: r5 =>
                          if c = rbrace then
                            Option.some (.cons (.str k) v .nil, r5)
                          else Option.none
                      | [] => Option.none)
              | _ => Option.none)
      | _ => Option.none
end

/-- `json.loads`: parse one value, allow surrounding whitespace, reject
trailing garbage. -/
def loads (s : List Char) : Option PyVal :=
  match parseVal (s.length + 1) s with
  | Option.some (v, rest) => if (skipWs rest).isEmpty then Option.some v else Option.none
  | Option.none => Option.none

/-! ## Round trip of `json.dumps` / `json.loads`

The spec asserts that body normalisation (serialize, then re-parse) is
lossless.  That holds exactly for values whose dicts have distinct string
keys and which contain no tuples (tuples serialise as arrays and come back
as lists) — and, in Python, no floats, which are outside this model
anyway. -/

/-- `k` does not occur (under Python `==`) among the keys of the dict. -/
def keyNotIn (k : PyVal) : PyDict → Bool
  | .nil => true
  | .cons k0 _ rest => !pyEq k0 k && keyNotIn k rest

/-- The keys of the dict are pairwise distinct under Python `==`. -/
def keysNodup : PyDict → Bool
  | .nil => true
  | .cons k _ rest => keyNotIn k rest && keysNodup rest

/-- Key of string type. -/
def isStrKey : PyVal → Bool
  | .str _ => true
  | _ => false

mutual
/-- Round-trippable values: no tuples, dict keys all strings and pairwise
distinct. -/
def goodVal : PyVal → Bool
  | .none => true
  | .bool _ => true
  | .int _ => true
  | .str _ => true
  | .list xs => goodList xs
  | .tuple _ => false
  | .dict kvs => goodMembers kvs && keysNodup kvs
def goodList : PyList → Bool
  | .nil => true
  | .cons v rest => goodVal v && goodList rest
def goodMembers : PyDict → Bool
  | .nil => true
  | .cons k v rest => isStrKey k && goodVal v && goodMembers rest
end

mutual
/-- Parser fuel needed for a value (mirrors the recursion of `parseVal`). -/
def pvFuel : PyVal → Nat
  | .none => 1
  | .bool _ => 1
  | .int _ => 1
  | .str _ => 1
  | .list .nil => 1
  | .list xs => 1 + elemsFuel xs
  | .tuple _ => 1
  | .dict .nil => 1
  | .dict kvs => 1 + membersFuel kvs
/-- Fuel needed by `parseElems` for a non-empty element list. -/
def elemsFuel : PyList → Nat
  | .nil => 1
  | .cons v .nil => 1 + pvFuel v
  | .cons v rest => 1 + max (pvFuel v) (elemsFuel rest)
/-- Fuel needed by `parseMembers` for a non-empty member list. -/
def membersFuel : PyDict → Nat
  | .nil => 1
  | .cons _ v .nil => 1 + pvFuel v
  | .cons _ v rest => 1 + max (pvFuel v) (membersFuel rest)
end

/-- Input safe to follow a serialised value: it cannot extend a numeric
token. -/
def restSafeB : List Char → Bool
  | [] => true
  | c :: _ => !c.isDigit && c != '.' && c != 'e' && c != 'E'

/-! ### Decimal digits and `natRepr` -/

theorem digitChar_lt10 {k : Nat} (h : k < 10) :
    (digitChar k).isDigit = true ∧ (digitChar k).toNat - 48 = k := by
  interval_cases k <;> exact ⟨rfl, rfl⟩

theorem natRepr_ne_nil (n : Nat) : natRepr n ≠ [] := by
  rw [natRepr_eq]
  split <;> simp

theorem natRepr_digits (n : Nat) : ∀ c ∈ natRepr n, c.isDigit = true := by
  induction n using Nat.strong_induction_on with
  | _ n ih =>
      intro c hc
      rw [natRepr_eq] at hc
      by_cases h : n < 10
      · rw [if_pos h] at hc
        simp only [List.mem_singleton] at hc
        exact hc ▸ (digitChar_lt10 h).1
      · rw [if_neg h] at hc
        rcases List.mem_append.mp hc with h1 | h1
        · exact ih (n / 10) (Nat.div_lt_self (by omega) (by omega)) c h1
        · simp only [List.mem_singleton] at h1
          exact h1 ▸ (digitChar_lt10 (Nat.mod_lt n (by omega))).1

/-- Folding the decimal digits of `natRepr n` recovers `n`. -/
theorem natRepr_foldl (n : Nat) :
    (natRepr n).foldl (fun a c => 10 * a + (c.toNat - 48)) 0 = n := by
  induction n using Nat.strong_induction_on with
  | _ n ih =>
      rw [natRepr_eq]
      by_cases h : n < 10
      · rw [if_pos h]
        simp [(digitChar_lt10 h).2]
      · rw [if_neg h, List.foldl_append,
          ih (n / 10) (Nat.div_lt_self (by omega) (by omega))]
        simp only [List.foldl_cons, List.foldl_nil]
        rw [(digitChar_lt10 (Nat.mod_lt n (by omega))).2]
        omega

/-- `natRepr` has no leading zero unless the number is zero. -/
theorem natRepr_head_pos {n : Nat} (h : 0 < n) : (natRepr n).headD '0' ≠ '0' := by
  induction n using Nat.strong_induction_on with
  | _ n ih =>
      rw [natRepr_eq]
      by_cases hlt : n < 10
      · rw [if_pos hlt]
        interval_cases n <;> simp_all <;> decide
      · rw [if_neg hlt]
        have hne := natRepr_ne_nil (n / 10)
        obtain ⟨c, cs, hc⟩ := List.exists_cons_of_ne_nil hne
        rw [hc]
        simpa [hc] using
          ih (n / 10) (Nat.div_lt_self (by omega) (by omega)) (by omega)

theorem takeWhile_all_append {p : Char → Bool} {l : List Char} (r : List Char)
    (hl : ∀ c ∈ l, p c = true) :
    (l ++ r).takeWhile p = l ++ r.takeWhile p ∧ (l ++ r).dropWhile p = r.dropWhile p := by
  induction l with
  | nil => simp
  | cons c cs ih =>
      have hc : p c = true := hl c (List.mem_cons_self c cs)
      have := ih (fun x hx => hl x (List.mem_cons_of_mem c hx))
      simp [List.takeWhile_cons, List.dropWhile_cons, hc, this.1, this.2]

theorem takeWhile_head_fails {p : Char → Bool} {r : List Char}
    (hr : ∀ c, r.head? = some c → p c = false) :
    r.takeWhile p = [] ∧ r.dropWhile p = r := by
  cases r with
  | nil => simp
  | cons c cs =>
      have := hr c rfl
      simp_all [List.takeWhile_cons, List.dropWhile_cons]

/-- `parseNatNum` consumes exactly a `natRepr` block. -/
theorem parseNatNum_natRepr (n : Nat) (rest : List Char)
    (hr : restSafeB rest = true) :
    parseNatNum (natRepr n ++ rest) = Option.some (n, rest) := by
  have hdig := natRepr_digits n
  have hrest : ∀ c, rest.head? = some c → c.isDigit = false := by
    intro c hc
    cases rest with
    | nil => exact Option.noConfusion hc
    | cons c0 cs =>
        simp only [List.head?_cons, Option.some.injEq] at hc
        subst hc
        simp only [restSafeB, Bool.and_eq_true, bne_iff_ne, Bool.not_eq_eq_eq_not,
          Bool.not_true] at hr
        exact hr.1.1.1
  have htake := (takeWhile_all_append rest hdig).1
  have hdrop := (takeWhile_all_append rest hdig).2
  have htf := takeWhile_head_fails (p := Char.isDigit) hrest
  rw [parseNatNum, htake, hdrop, htf.1, htf.2, List.append_nil]
  rw [if_neg (natRepr_ne_nil n)]
  have hlz : ¬((natRepr n).headD '0' = '0' ∧ (natRepr n).length > 1) := by
    rcases Nat.eq_zero_or_pos n with h0 | hpos
    · subst h0
      intro hx
      have h1 : natRepr 0 = ['0'] := by rw [natRepr]; rfl
      rw [h1] at hx
      simp at hx
    · intro hx
      have h2 := natRepr_head_pos hpos
      exact h2 hx.1
  rw [if_neg hlz]
  have hd : ¬(rest.head? = some '.' ∨ rest.head? = some 'e' ∨ rest.head? = some 'E') := by
    intro hx
    cases rest with
    | nil => simp at hx
    | cons c0 cs =>
        simp only [restSafeB, Bool.and_eq_true, bne_iff_ne, Bool.not_eq_eq_eq_not,
          Bool.not_true] at hr
        simp only [List.head?_cons, Option.some.injEq] at hx
        rcases hx with h | h | h
        · exact hr.1.1.2 h
        · exact hr.1.2 h
        · exact hr.2 h
  rw [if_neg hd, natRepr_foldl n]

/-- `parseNum` reads back `intRepr`. -/
theorem parseNum_intRepr (n : Int) (rest : List Char)
    (hr : restSafeB rest = true) :
    parseNum (intRepr n ++ rest) = Option.some (.int n, rest) := by
  by_cases hneg : n < 0
  · rw [intRepr, if_pos hneg]
    rw [show ('-' :: natRepr (-n).toNat) ++ rest = '-' :: (natRepr (-n).toNat ++ rest)
      from rfl]
    rw [parseNum, if_pos rfl, parseNatNum_natRepr _ _ hr]
    have harith : -(((-n).toNat : Int)) = n := by omega
    simp only [Option.map_some']
    rw [harith]
  · rw [intRepr, if_neg hneg]
    have hne := natRepr_ne_nil n.toNat
    obtain ⟨c, cs, hc⟩ := List.exists_cons_of_ne_nil hne
    have hcdig : c.isDigit = true :=
      natRepr_digits n.toNat c (by rw [hc]; exact List.mem_cons_self c cs)
    have hcne : ¬(c = '-') := by
      intro hx
      rw [hx] at hcdig
      exact Bool.noConfusion hcdig
    rw [hc, List.cons_append, parseNum, if_neg hcne, ← List.cons_append, ← hc,
      parseNatNum_natRepr _ _ hr]
    have harith : ((n.toNat : Int)) = n := by omega
    simp only [Option.map_some']
    rw [harith]

/-! ### String escapes -/

theorem hexVal_hexDigitChar {k : Nat} (h : k < 16) :
    hexVal (hexDigitChar k) = Option.some k := by
  interval_cases k <;> rfl

theorem decodeHex4_toHex4 {n : Nat} (h : n < 0x10000) :
    decodeHex4 (hexDigitChar (n / 4096 % 16)) (hexDigitChar (n / 256 % 16))
      (hexDigitChar (n / 16 % 16)) (hexDigitChar (n % 16)) = Option.some n := by
  rw [decodeHex4,
    hexVal_hexDigitChar (Nat.mod_lt _ (by omega)),
    hexVal_hexDigitChar (Nat.mod_lt _ (by omega)),
    hexVal_hexDigitChar (Nat.mod_lt _ (by omega)),
    hexVal_hexDigitChar (Nat.mod_lt _ (by omega))]
  have e1 : n / 16 / 16 = n / 256 := by rw [Nat.div_div_eq_div_mul]
  have e2 : n / 256 / 16 = n / 4096 := by rw [Nat.div_div_eq_div_mul]
  have e3 : 4096 * (n / 4096 % 16) + 256 * (n / 256 % 16) + 16 * (n / 16 % 16) + n % 16
      = n := by omega
  show Option.some
      (4096 * (n / 4096 % 16) + 256 * (n / 256 % 16) + 16 * (n / 16 % 16) + n % 16)
    = Option.some n
  rw [e3]

/-- Unicode scalar values avoid the surrogate range. -/
theorem char_toNat_valid (c : Char) :
    c.toNat < 0xD800 ∨ (0xE000 ≤ c.toNat ∧ c.toNat < 0x110000) := by
  rcases c.valid with h | h
  · left; exact_mod_cast h
  · obtain ⟨h1, h2⟩ := h
    right
    constructor
    · show 57344 ≤ c.val.toNat
      omega
    · show c.val.toNat < 1114112
      omega

/-- `parseJStr` decodes exactly what `escChar` encodes. -/
theorem parseJStr_escape (s : List Char) :
    ∀ rest, parseJStr (s.flatMap escChar ++ '"' :: rest) = Option.some (s, rest) := by
  induction s with
  | nil => intro rest; rfl
  | cons c cs ih =>
      intro rest
      rw [List.flatMap_cons, List.append_assoc]
      have htail := ih rest
      by_cases h1 : c = '"'
      · subst h1
        rw [show escChar '"' = ['\\', '"'] from rfl]
        rw [show (['\\', '"'] : List Char) ++ (cs.flatMap escChar ++ '"' :: rest)
            = '\\' :: '"' :: (cs.flatMap escChar ++ '"' :: rest) from rfl]
        rw [show ∀ r : List Char,
            parseJStr ('\\' :: '"' :: r) = (parseJStr r).map (fun p => ('"' :: p.1, p.2))
          from fun r => rfl]
        rw [htail]
        rfl
      · by_cases h2 : c = '\\'
        · subst h2
          rw [show escChar '\\' = ['\\', '\\'] from rfl]
          rw [show (['\\', '\\'] : List Char) ++ (cs.flatMap escChar ++ '"' :: rest)
              = '\\' :: '\\' :: (cs.flatMap escChar ++ '"' :: rest) from rfl]
          rw [show ∀ r : List Char,
              parseJStr ('\\' :: '\\' :: r) = (parseJStr r).map (fun p => ('\\' :: p.1, p.2))
            from fun r => rfl]
          rw [htail]
          rfl
        · by_cases h3 : c = '\n'
          · subst h3
            rw [show escChar '\n' = ['\\', 'n'] from rfl]
            rw [show (['\\', 'n'] : List Char) ++ (cs.flatMap escChar ++ '"' :: rest)
                = '\\' :: 'n' :: (cs.flatMap escChar ++ '"' :: rest) from rfl]
            rw [show ∀ r : List Char,
                parseJStr ('\\' :: 'n' :: r) = (parseJStr r).map (fun p => ('\n' :: p.1, p.2))
              from fun r => rfl]
            rw [htail]
            rfl
          · by_cases h4 : c = '\r'
            · subst h4
              rw [show escChar '\r' = ['\\', 'r'] from rfl]
              rw [show (['\\', 'r'] : List Char) ++ (cs.flatMap escChar ++ '"' :: rest)
                  = '\\' :: 'r' :: (cs.flatMap escChar ++ '"' :: rest) from rfl]
              rw [show ∀ r : List Char,
                  parseJStr ('\\' :: 'r' :: r)
                    = (parseJStr r).map (fun p => ('\r' :: p.1, p.2))
                from fun r => rfl]
              rw [htail]
              rfl
            · by_cases h5 : c = '\t'
              · subst h5
                rw [show escChar '\t' = ['\\', 't'] from rfl]
                rw [show (['\\', 't'] : List Char) ++ (cs.flatMap escChar ++ '"' :: rest)
                    = '\\' :: 't' :: (cs.flatMap escChar ++ '"' :: rest) from rfl]
                rw [show ∀ r : List Char,
                    parseJStr ('\\' :: 't' :: r)
                      = (parseJStr r).map (fun p => ('\t' :: p.1, p.2))
                  from fun r => rfl]
                rw [htail]
                rfl
              · by_cases h6 : c = bsChar
                · subst h6
                  rw [show escChar bsChar = ['\\', 'b'] from rfl]
                  rw [show (['\\', 'b'] : List Char) ++ (cs.flatMap escChar ++ '"' :: rest)
                      = '\\' :: 'b' :: (cs.flatMap escChar ++ '"' :: rest) from rfl]
                  rw [show ∀ r : List Char,
                      parseJStr ('\\' :: 'b' :: r)
                        = (parseJStr r).map (fun p => (bsChar :: p.1, p.2))
                    from fun r => rfl]
                  rw [htail]
                  rfl
                · by_cases h7 : c = ffChar
                  · subst h7
                    rw [show escChar ffChar = ['\\', 'f'] from rfl]
                    rw [show (['\\', 'f'] : List Char)
                          ++ (cs.flatMap escChar ++ '"' :: rest)
                        = '\\' :: 'f' :: (cs.flatMap escChar ++ '"' :: rest) from rfl]
                    rw [show ∀ r : List Char,
                        parseJStr ('\\' :: 'f' :: r)
                          = (parseJStr r).map (fun p => (ffChar :: p.1, p.2))
                      from fun r => rfl]
                    rw [htail]
                    rfl
                  · by_cases h8 : c.toNat < 0x20 ∨ 0x7f ≤ c.toNat
                    · have hesc : escChar c
                          = if c.toNat < 0x10000 then '\\' :: 'u' :: toHex4 c.toNat
                            else ('\\' :: 'u' :: toHex4 (0xD800 + (c.toNat - 0x10000) / 1024))
                              ++ ('\\' :: 'u' :: toHex4 (0xDC00 + (c.toNat - 0x10000) % 1024)) := by
                        rw [escChar, if_neg h1, if_neg h2, if_neg h3, if_neg h4, if_neg h5,
                          if_neg h6, if_neg h7, if_pos h8]
                      by_cases h9 : c.toNat < 0x10000
                      · -- BMP escape `\uXXXX`
                        rw [hesc, if_pos h9]
                        rw [show ('\\' :: 'u' :: toHex4 c.toNat)
                              ++ (cs.flatMap escChar ++ '"' :: rest)
                            = '\\' :: 'u' :: (hexDigitChar (c.toNat / 4096 % 16)
                              :: hexDigitChar (c.toNat / 256 % 16)
                              :: hexDigitChar (c.toNat / 16 % 16)
                              :: hexDigitChar (c.toNat % 16)
                              :: (cs.flatMap escChar ++ '"' :: rest)) from rfl]
                        rw [show ∀ (a b c2 d : Char) (r : List Char),
                            parseJStr ('\\' :: 'u' :: a :: b :: c2 :: d :: r)
                              = parseEscU (a :: b :: c2 :: d :: r)
                          from fun a b c2 d r => rfl]
                        rw [show ∀ (a b c2 d : Char) (r : List Char),
                            parseEscU (a :: b :: c2 :: d :: r)
                              = (match decodeHex4 a b c2 d with
                                | Option.none => Option.none
                                | Option.some n =>
                                  if 0xD800 ≤ n ∧ n < 0xDC00 then parseEscP n r
                                  else if 0xDC00 ≤ n ∧ n < 0xE000 then Option.none
                                  else (parseJStr r).map
                                    (fun p => (Char.ofNat n :: p.1, p.2)))
                          from fun a b c2 d r => rfl]
                        rw [decodeHex4_toHex4 h9]
                        have hval := char_toNat_valid c
                        rw [show (match Option.some c.toNat with
                              | Option.none => Option.none
                              | Option.some n =>
                                if 0xD800 ≤ n ∧ n < 0xDC00 then
                                  parseEscP n (cs.flatMap escChar ++ '"' :: rest)
                                else if 0xDC00 ≤ n ∧ n < 0xE000 then Option.none
                                else (parseJStr (cs.flatMap escChar ++ '"' :: rest)).map
                                  (fun p => (Char.ofNat n :: p.1, p.2)))
                            = if 0xD800 ≤ c.toNat ∧ c.toNat < 0xDC00 then
                                parseEscP c.toNat (cs.flatMap escChar ++ '"' :: rest)
                              else if 0xDC00 ≤ c.toNat ∧ c.toNat < 0xE000 then Option.none
                              else (parseJStr (cs.flatMap escChar ++ '"' :: rest)).map
                                (fun p => (Char.ofNat c.toNat :: p.1, p.2)) from rfl]
                        rw [if_neg (by omega), if_neg (by omega), htail, Char.ofNat_toNat]
                        rfl
                      · -- astral character: surrogate pair
                        rcases char_toNat_valid c with hv | hv
                        · exact absurd hv (by omega)
                        rw [hesc, if_neg h9]
                        rw [show (('\\' :: 'u' :: toHex4 (0xD800 + (c.toNat - 0x10000) / 1024))
                              ++ ('\\' :: 'u' :: toHex4 (0xDC00 + (c.toNat - 0x10000) % 1024)))
                              ++ (cs.flatMap escChar ++ '"' :: rest)
                            = '\\' :: 'u'
                              :: (hexDigitChar ((0xD800 + (c.toNat - 0x10000) / 1024) / 4096 % 16)
                              :: hexDigitChar ((0xD800 + (c.toNat - 0x10000) / 1024) / 256 % 16)
                              :: hexDigitChar ((0xD800 + (c.toNat - 0x10000) / 1024) / 16 % 16)
                              :: hexDigitChar ((0xD800 + (c.toNat - 0x10000) / 1024) % 16)
                              :: ('\\' :: 'u'
                                :: hexDigitChar ((0xDC00 + (c.toNat - 0x10000) % 1024) / 4096 % 16)
                                :: hexDigitChar ((0xDC00 + (c.toNat - 0x10000) % 1024) / 256 % 16)
                                :: hexDigitChar ((0xDC00 + (c.toNat - 0x10000) % 1024) / 16 % 16)
                                :: hexDigitChar ((0xDC00 + (c.toNat - 0x10000) % 1024) % 16)
                                :: (cs.flatMap escChar ++ '"' :: rest))) from rfl]
                        rw [show ∀ (a b c2 d : Char) (r : List Char),
                            parseJStr ('\\' :: 'u' :: a :: b :: c2 :: d :: r)
                              = parseEscU (a :: b :: c2 :: d :: r)
                          from fun a b c2 d r => rfl]
                        rw [show ∀ (a b c2 d : Char) (r : List Char),
                            parseEscU (a :: b :: c2 :: d :: r)
                              = (match decodeHex4 a b c2 d with
                                | Option.none => Option.none
                                | Option.some n =>
                                  if 0xD800 ≤ n ∧ n < 0xDC00 then parseEscP n r
                                  else if 0xDC00 ≤ n ∧ n < 0xE000 then Option.none
                                  else (parseJStr r).map
                                    (fun p => (Char.ofNat n :: p.1, p.2)))
                          from fun a b c2 d r => rfl]
                        rw [decodeHex4_toHex4 (by omega)]
                        rw [show ∀ (n : Nat) (r : List Char),
                            (match Option.some n with
                              | Option.none => Option.none
                              | Option.some n =>
                                if 0xD800 ≤ n ∧ n < 0xDC00 then parseEscP n r
                                else if 0xDC00 ≤ n ∧ n < 0xE000 then Option.none
                                else (parseJStr r).map
                                  (fun p => (Char.ofNat n :: p.1, p.2)))
                              = if 0xD800 ≤ n ∧ n < 0xDC00 then parseEscP n r
                                else if 0xDC00 ≤ n ∧ n < 0xE000 then Option.none
                                else (parseJStr r).map
                                  (fun p => (Char.ofNat n :: p.1, p.2))
                          from fun n r => rfl]
                        rw [if_pos (by constructor <;> omega)]
                        rw [show ∀ (n : Nat) (a b c2 d : Char) (r : List Char),
                            parseEscP n ('\\' :: 'u' :: a :: b :: c2 :: d :: r)
                              = (match decodeHex4 a b c2 d with
                                | Option.some m =>
                                    if 0xDC00 ≤ m ∧ m < 0xE000 then
                                      (parseJStr r).map (fun p =>
                                        (Char.ofNat
                                            (0x10000 + (n - 0xD800) * 1024 + (m - 0xDC00))
                                          :: p.1, p.2))
                                    else Option.none
                                | Option.none => Option.none)
                          from fun n a b c2 d r => rfl]
                        rw [decodeHex4_toHex4 (by omega)]
                        rw [show ∀ (n m : Nat) (r : List Char),
                            (match Option.some m with
                              | Option.some m =>
                                  if 0xDC00 ≤ m ∧ m < 0xE000 then
                                    (parseJStr r).map (fun p =>
                                      (Char.ofNat
                                          (0x10000 + (n - 0xD800) * 1024 + (m - 0xDC00))
                                        :: p.1, p.2))
                                  else Option.none
                              | Option.none => Option.none)
                              = if 0xDC00 ≤ m ∧ m < 0xE000 then
                                  (parseJStr r).map (fun p =>
                                    (Char.ofNat
                                        (0x10000 + (n - 0xD800) * 1024 + (m - 0xDC00))
                                      :: p.1, p.2))
                                else Option.none
                          from fun n m r => rfl]
                        rw [if_pos (by constructor <;> omega)]
                        have harith :
                            0x10000 + ((0xD800 + (c.toNat - 0x10000) / 1024) - 0xD800) * 1024
                                + ((0xDC00 + (c.toNat - 0x10000) % 1024) - 0xDC00)
                              = c.toNat := by omega
                        rw [harith, Char.ofNat_toNat, htail]
                        rfl
                    · -- printable ASCII other than the two mandatory escapes
                      have hesc : escChar c = [c] := by
                        rw [escChar, if_neg h1, if_neg h2, if_neg h3, if_neg h4,
                          if_neg h5, if_neg h6, if_neg h7, if_neg h8]
                      rw [hesc, List.cons_append, List.nil_append]
                      rw [show parseJStr (c :: (cs.flatMap escChar ++ '"' :: rest))
                          = if c = '"' then Option.some ([], cs.flatMap escChar ++ '"' :: rest)
                            else if c = '\\' then parseEscS (cs.flatMap escChar ++ '"' :: rest)
                            else if c.toNat < 0x20 then Option.none
                            else (parseJStr (cs.flatMap escChar ++ '"' :: rest)).map
                              (fun p => (c :: p.1, p.2)) from rfl]
                      rw [if_neg h1, if_neg h2, if_neg (by omega : ¬c.toNat < 0x20), htail]
                      rfl

/-! ### Head shapes of serialised values -/

theorem skipWs_not_ws {c : Char} (h : isJsonWs c = false) (X : List Char) :
    skipWs (c :: X) = c :: X := by
  rw [skipWs, if_neg (by simp [h])]

theorem skipWs_ws {c : Char} (h : isJsonWs c = true) (X : List Char) :
    skipWs (c :: X) = skipWs X := by
  rw [skipWs, if_pos h]

theorem parseVal_ws (f : Nat) {c : Char} (hc : isJsonWs c = true) (X : List Char) :
    parseVal f (c :: X) = parseVal f X := by
  cases f with
  | zero => rfl
  | succ f =>
      simp only [parseVal]
      rw [skipWs_ws hc]

theorem parseElems_ws (f : Nat) {c : Char} (hc : isJsonWs c = true) (X : List Char) :
    parseElems f (c :: X) = parseElems f X := by
  cases f with
  | zero => rfl
  | succ f =>
      simp only [parseElems]
      rw [parseVal_ws f hc]

theorem parseMembers_ws (f : Nat) {c : Char} (hc : isJsonWs c = true) (X : List Char) :
    parseMembers f (c :: X) = parseMembers f X := by
  cases f with
  | zero => rfl
  | succ f =>
      simp only [parseMembers]
      rw [skipWs_ws hc]

theorem pvFuel_pos (v : PyVal) : 1 ≤ pvFuel v := by
  cases v with
  | list xs => cases xs <;> simp [pvFuel]
  | dict kvs => cases kvs <;> simp [pvFuel]
  | _ => simp [pvFuel]

theorem elemsFuel_pos (xs : PyList) : 1 ≤ elemsFuel xs := by
  cases xs with
  | nil => simp [elemsFuel]
  | cons v rest => cases rest <;> simp [elemsFuel]

theorem membersFuel_pos (kvs : PyDict) : 1 ≤ membersFuel kvs := by
  cases kvs with
  | nil => simp [membersFuel]
  | cons k v rest => cases rest <;> simp [membersFuel]

theorem digit_toNat {c : Char} (h : c.isDigit = true) :
    48 ≤ c.toNat ∧ c.toNat ≤ 57 := by
  simp only [Char.isDigit, Bool.and_eq_true, decide_eq_true_eq] at h
  obtain ⟨h1, h2⟩ := h
  constructor
  · exact_mod_cast h1
  · exact_mod_cast h2

/-- A digit or minus sign never collides with a structural character. -/
theorem numHead_facts {c : Char} (h : c = '-' ∨ c.isDigit = true) :
    isJsonWs c = false ∧ ¬c = '[' ∧ ¬c = '"' ∧ ¬c = lbrace ∧ ¬c = 't' ∧ ¬c = 'f' ∧
      ¬c = 'n' ∧ ¬c = ']' ∧ ¬c = rbrace := by
  rcases h with h | h
  · subst h; refine ⟨rfl, ?_, ?_, ?_, ?_, ?_, ?_, ?_, ?_⟩ <;> decide
  · obtain ⟨h1, h2⟩ := digit_toNat h
    have hne : ∀ d : Char, d.toNat < 48 ∨ 57 < d.toNat → ¬c = d := by
      intro d hd hx
      subst hx
      omega
    refine ⟨?_, hne _ (by decide), hne _ (by decide), hne _ (by decide),
      hne _ (by decide), hne _ (by decide), hne _ (by decide), hne _ (by decide),
      hne _ (by decide)⟩
    simp only [isJsonWs]
    have w1 := hne ' ' (by decide)
    have w2 := hne '\t' (by decide)
    have w3 := hne '\n' (by decide)
    have w4 := hne '\r' (by decide)
    simp [w1, w2, w3, w4]

/-- The head of the serialised form of a number. -/
theorem intRepr_head (n : Int) :
    ∃ c cs, intRepr n = c :: cs ∧ (c = '-' ∨ c.isDigit = true) := by
  rw [intRepr]
  by_cases hneg : n < 0
  · rw [if_pos hneg]
    exact ⟨'-', _, rfl, Or.inl rfl⟩
  · rw [if_neg hneg]
    obtain ⟨c, cs, hc⟩ := List.exists_cons_of_ne_nil (natRepr_ne_nil n.toNat)
    refine ⟨c, cs, hc, Or.inr ?_⟩
    exact natRepr_digits n.toNat c (by rw [hc]; exact List.mem_cons_self c cs)

/-- The head character of any serialised value: never whitespace, never a
closing bracket or brace. -/
theorem dumps_head {v : PyVal} {ds : List Char} (hg : goodVal v = true)
    (hd : dumpsVal v = Option.some ds) :
    ∃ c cs, ds = c :: cs ∧ isJsonWs c = false ∧ ¬c = ']' ∧ ¬c = rbrace := by
  cases v with
  | none =>
      have hds : ds = 'n' :: ['u', 'l', 'l'] := by
        simp only [dumpsVal, Option.some.injEq] at hd
        rw [← hd]; rfl
      exact ⟨'n', ['u', 'l', 'l'], hds, rfl, by decide, by decide⟩
  | bool b =>
      cases b
      · have hds : ds = 'f' :: ['a', 'l', 's', 'e'] := by
          simp only [dumpsVal, Option.some.injEq] at hd
          rw [← hd]; rfl
        exact ⟨'f', ['a', 'l', 's', 'e'], hds, rfl, by decide, by decide⟩
      · have hds : ds = 't' :: ['r', 'u', 'e'] := by
          simp only [dumpsVal, Option.some.injEq] at hd
          rw [← hd]; rfl
        exact ⟨'t', ['r', 'u', 'e'], hds, rfl, by decide, by decide⟩
  | int n =>
      obtain ⟨c, cs, hc, hor⟩ := intRepr_head n
      have hds : ds = c :: cs := by
        simp only [dumpsVal, Option.some.injEq] at hd
        rw [← hd, hc]
      obtain ⟨hw, _, _, _, _, _, _, hb, hr⟩ := numHead_facts hor
      exact ⟨c, cs, hds, hw, hb, hr⟩
  | str s =>
      have hds : ds = '"' :: (s.flatMap escChar ++ ['"']) := by
        simp only [dumpsVal, Option.some.injEq] at hd
        rw [← hd, escStr]
        rfl
      exact ⟨'"', _, hds, rfl, by decide, by decide⟩
  | list xs =>
      simp only [dumpsVal] at hd
      obtain ⟨e, _, he2⟩ := Option.map_eq_some'.mp hd
      exact ⟨'[', e ++ [']'], he2.symm, rfl, by decide, by decide⟩
  | tuple xs => exact absurd hg (by simp [goodVal])
  | dict kvs =>
      simp only [dumpsVal] at hd
      obtain ⟨e, _, he2⟩ := Option.map_eq_some'.mp hd
      exact ⟨lbrace, e ++ [rbrace], he2.symm, by decide, by decide, by decide⟩

/-! ### Dict insertion on distinct string keys -/

/-- Induction along the spine of a dict (the values are untouched). -/
theorem PyDict.dictSpine {motive : PyDict → Prop} (hnil : motive .nil)
    (hcons : ∀ k v rest, motive rest → motive (.cons k v rest)) : ∀ d, motive d
  | .nil => hnil
  | .cons k v rest => hcons k v rest (PyDict.dictSpine hnil hcons rest)

/-- Induction along the spine of a list value. -/
theorem PyList.listSpine {motive : PyList → Prop} (hnil : motive .nil)
    (hcons : ∀ v rest, motive rest → motive (.cons v rest)) : ∀ xs, motive xs
  | .nil => hnil
  | .cons v rest => hcons v rest (PyList.listSpine hnil hcons rest)

/-- Plain concatenation of two dicts. -/
def PyDict.appendD : PyDict → PyDict → PyDict
  | .nil, d => d
  | .cons k v rest, d => .cons k v (rest.appendD d)

/-- No key of the first dict occurs (under `==`) in the second. -/
def allKeysNotIn : PyDict → PyDict → Bool
  | .nil, _ => true
  | .cons k _ rest, acc => keyNotIn k acc && allKeysNotIn rest acc

theorem appendD_nil (d : PyDict) : d.appendD .nil = d := by
  induction d using PyDict.dictSpine with
  | hnil => rfl
  | hcons k v rest ih => rw [PyDict.appendD, ih]

theorem pyEq_str_comm (a : List Char) (k : PyVal) :
    pyEq (.str a) k = pyEq k (.str a) := by
  cases k <;> simp only [pyEq]
  rw [Bool.eq_iff_iff, beq_iff_eq, beq_iff_eq, eq_comm]

theorem pyInsert_notIn {acc : PyDict} {k : PyVal} (v : PyVal)
    (h : keyNotIn k acc = true) :
    acc.pyInsert k v = acc.appendD (.cons k v .nil) := by
  induction acc using PyDict.dictSpine with
  | hnil => rfl
  | hcons k0 v0 rest ih =>
      rw [keyNotIn, Bool.and_eq_true] at h
      rw [PyDict.pyInsert, if_neg (by simpa using h.1), PyDict.appendD, ih h.2]

theorem keyNotIn_appendD (k : PyVal) (a b : PyDict) :
    keyNotIn k (a.appendD b) = (keyNotIn k a && keyNotIn k b) := by
  induction a using PyDict.dictSpine with
  | hnil => simp [PyDict.appendD, keyNotIn]
  | hcons k0 v0 rest ih =>
      rw [PyDict.appendD, keyNotIn, keyNotIn, ih, Bool.and_assoc]

theorem allKeysNotIn_appendD (src a b : PyDict) :
    allKeysNotIn src (a.appendD b) = (allKeysNotIn src a && allKeysNotIn src b) := by
  induction src using PyDict.dictSpine with
  | hnil => rfl
  | hcons k v rest ih =>
      rw [allKeysNotIn, allKeysNotIn, allKeysNotIn, keyNotIn_appendD, ih]
      rw [Bool.and_assoc, Bool.and_assoc]
      congr 1
      rw [← Bool.and_assoc, ← Bool.and_assoc]
      congr 1
      rw [Bool.and_comm]

theorem allKeysNotIn_nilAcc (src : PyDict) : allKeysNotIn src .nil = true := by
  induction src using PyDict.dictSpine with
  | hnil => rfl
  | hcons k v rest ih => rw [allKeysNotIn, keyNotIn, ih, Bool.and_true]

/-- For string-keyed members, `keyNotIn k src` transposes to: every key of
`src` avoids `k`. -/
theorem allKeysNotIn_single {src : PyDict} {k : PyVal} (v : PyVal) {a : List Char}
    (hk : k = .str a) (hs : goodMembers src = true) (h : keyNotIn k src = true) :
    allKeysNotIn src (.cons k v .nil) = true := by
  induction src using PyDict.dictSpine with
  | hnil => rfl
  | hcons k0 v0 rest ih =>
      rw [keyNotIn, Bool.and_eq_true] at h
      rw [goodMembers, Bool.and_eq_true, Bool.and_eq_true] at hs
      rw [allKeysNotIn, Bool.and_eq_true]
      refine ⟨?_, ih hs.2 h.2⟩
      rw [keyNotIn, keyNotIn, Bool.and_true]
      have hsym : pyEq k k0 = pyEq k0 k := by
        subst hk
        exact pyEq_str_comm a k0
      rw [← hsym] at h
      simp [h.1]

theorem appendD_assoc (a b c : PyDict) :
    (a.appendD b).appendD c = a.appendD (b.appendD c) := by
  induction a using PyDict.dictSpine with
  | hnil => rfl
  | hcons k v rest ih => rw [PyDict.appendD, PyDict.appendD, PyDict.appendD, ih]

theorem pyInsertAll_appendD {src : PyDict} :
    ∀ acc, goodMembers src = true → keysNodup src = true →
      allKeysNotIn src acc = true → PyDict.pyInsertAll acc src = acc.appendD src := by
  induction src using PyDict.dictSpine with
  | hnil => intro acc _ _ _; rw [PyDict.pyInsertAll, appendD_nil]
  | hcons k v rest ih =>
      intro acc hg hn ha
      rw [goodMembers, Bool.and_eq_true, Bool.and_eq_true] at hg
      rw [keysNodup, Bool.and_eq_true] at hn
      rw [allKeysNotIn, Bool.and_eq_true] at ha
      obtain ⟨⟨hk, _⟩, hrest⟩ := hg
      have hkstr : ∃ a, k = PyVal.str a := by
        cases k <;> simp_all [isStrKey]
      obtain ⟨a, hka⟩ := hkstr
      rw [PyDict.pyInsertAll, pyInsert_notIn v ha.1]
      have hacc : allKeysNotIn rest (acc.appendD (.cons k v .nil)) = true := by
        rw [allKeysNotIn_appendD, Bool.and_eq_true]
        exact ⟨ha.2, allKeysNotIn_single v hka hrest hn.1⟩
      rw [ih (acc.appendD (.cons k v .nil)) hrest hn.2 hacc, appendD_assoc]
      rfl

/-- Parsing an object with pairwise-distinct string keys rebuilds exactly the
member list. -/
theorem pyInsertAll_nodup {src : PyDict} (hg : goodMembers src = true)
    (hn : keysNodup src = true) : PyDict.pyInsertAll .nil src = src :=
  pyInsertAll_appendD .nil hg hn (allKeysNotIn_nilAcc src)

/-! ### Serialised shapes of element and member lists -/

theorem dumpsElems_cons_nil {v : PyVal} {e : List Char}
    (hd : dumpsElems (.cons v .nil) = Option.some e) : dumpsVal v = Option.some e := by
  simpa [dumpsElems] using hd

theorem dumpsElems_cons_cons {v v2 : PyVal} {tail : PyList} {e : List Char}
    (hd : dumpsElems (.cons v (.cons v2 tail)) = Option.some e) :
    ∃ dv dr, dumpsVal v = Option.some dv ∧ dumpsElems (.cons v2 tail) = Option.some dr
      ∧ e = dv ++ ',' :: ' ' :: dr := by
  simp only [dumpsElems] at hd
  cases h1 : dumpsVal v with
  | none => rw [h1] at hd; exact absurd hd (by simp)
  | some dv =>
      cases h2 : dumpsElems (.cons v2 tail) with
      | none => rw [h1, h2] at hd; exact absurd hd (by simp)
      | some dr =>
          rw [h1, h2] at hd
          simp only [Option.some.injEq] at hd
          exact ⟨dv, dr, rfl, rfl, hd.symm⟩

theorem dumpsKey_str {k : PyVal} (hk : isStrKey k = true) :
    ∃ ks, k = PyVal.str ks ∧ dumpsKey k = Option.some (escStr ks) := by
  cases k <;> simp_all [isStrKey, dumpsKey]

theorem dumpsMembers_cons_nil {k v : PyVal} {e : List Char}
    (hk : isStrKey k = true)
    (hd : dumpsMembers (.cons k v .nil) = Option.some e) :
    ∃ ks dv, k = PyVal.str ks ∧ dumpsVal v = Option.some dv
      ∧ e = escStr ks ++ ':' :: ' ' :: dv := by
  obtain ⟨ks, hks, hdk⟩ := dumpsKey_str hk
  rw [dumpsMembers, hdk] at hd
  cases h1 : dumpsVal v with
  | none => rw [h1] at hd; exact absurd hd (by simp)
  | some dv =>
      rw [h1] at hd
      simp only [Option.some.injEq] at hd
      exact ⟨ks, dv, hks, rfl, hd.symm⟩

theorem dumpsMembers_cons_cons {k v k2 v2 : PyVal} {tail : PyDict} {e : List Char}
    (hk : isStrKey k = true)
    (hd : dumpsMembers (.cons k v (.cons k2 v2 tail)) = Option.some e) :
    ∃ ks dv dr, k = PyVal.str ks ∧ dumpsVal v = Option.some dv
      ∧ dumpsMembers (.cons k2 v2 tail) = Option.some dr
      ∧ e = escStr ks ++ ':' :: ' ' :: dv ++ ',' :: ' ' :: dr := by
  obtain ⟨ks, hks, hdk⟩ := dumpsKey_str hk
  simp only [dumpsMembers, hdk] at hd
  cases h1 : dumpsVal v with
  | none => rw [h1] at hd; exact absurd hd (by simp)
  | some dv =>
      cases h2 : dumpsMembers (.cons k2 v2 tail) with
      | none => rw [h1, h2] at hd; exact absurd hd (by simp)
      | some dr =>
          rw [h1, h2] at hd
          simp only [Option.some.injEq] at hd
          exact ⟨ks, dv, dr, hks, rfl, rfl, hd.symm⟩

/-! ### `parseVal` step reductions -/

theorem parseVal_str (f : Nat) (Y : List Char) :
    parseVal (f + 1) ('"' :: Y) = (parseJStr Y).map (fun p => (.str p.1, p.2)) := rfl

theorem parseVal_bracket (f : Nat) (Y : List Char) :
    parseVal (f + 1) ('[' :: Y) =
      (match skipWs Y with
        | c2 :: r2 =>
            if c2 = ']' then Option.some (.list .nil, r2)
            else (parseElems f (c2 :: r2)).map (fun p => (.list p.1, p.2))
        | [] => Option.none) := rfl

theorem parseVal_brace (f : Nat) (Y : List Char) :
    parseVal (f + 1) (lbrace :: Y) =
      (match skipWs Y with
        | c2 :: r2 =>
            if c2 = rbrace then Option.some (.dict .nil, r2)
            else
              (parseMembers f (c2 :: r2)).map
                (fun p => (.dict (PyDict.pyInsertAll .nil p.1), p.2))
        | [] => Option.none) := rfl

theorem parseElems_succ (f : Nat) (s : List Char) :
    parseElems (f + 1) s =
      (match parseVal f s with
        | Option.none => Option.none
        | Option.some (v, r) =>
          match skipWs r with
          | ',' :: r2 => (parseElems f r2).map (fun p => (.cons v p.1, p.2))
          | ']' :: r2 => Option.some (.cons v .nil, r2)
          | _ => Option.none) := rfl

theorem parseMembers_succ (f : Nat) (W : List Char) :
    parseMembers (f + 1) ('"' :: W) =
      (match parseJStr W with
        | Option.none => Option.none
        | Option.some (k, r2) =>
          match skipWs r2 with
          | ':' :: r3 =>
              (match parseVal f r3 with
                | Option.none => Option.none
                | Option.some (v, r4) =>
                  match skipWs r4 with
                  | ',' :: r5 =>
                      (parseMembers f r5).map
                        (fun p => (PyDict.cons (.str k) v p.1, p.2))
                  | c :: r5 =>
                      if c = rbrace then
                        Option.some (.cons (.str k) v .nil, r5)
                      else Option.none
                  | [] => Option.none)
          | _ => Option.none) := rfl

theorem parseVal_cons (f : Nat) (c : Char) (X : List Char) (hw : isJsonWs c = false) :
    parseVal (f + 1) (c :: X) =
      (if c = '[' then
        match skipWs X with
        | c2 :: r2 =>
            if c2 = ']' then Option.some (.list .nil, r2)
            else (parseElems f (c2 :: r2)).map (fun p => (.list p.1, p.2))
        | [] => Option.none
      else if c = '"' then (parseJStr X).map (fun p => (.str p.1, p.2))
      else if c = lbrace then
        match skipWs X with
        | c2 :: r2 =>
            if c2 = rbrace then Option.some (.dict .nil, r2)
            else
              (parseMembers f (c2 :: r2)).map
                (fun p => (.dict (PyDict.pyInsertAll .nil p.1), p.2))
        | [] => Option.none
      else if c = 't' then
        match X with
        | 'r' :: 'u' :: 'e' :: r2 => Option.some (.bool true, r2)
        | _ => Option.none
      else if c = 'f' then
        match X with
        | 'a' :: 'l' :: 's' :: 'e' :: r2 => Option.some (.bool false, r2)
        | _ => Option.none
      else if c = 'n' then
        match X with
        | 'u' :: 'l' :: 'l' :: r2 => Option.some (.none, r2)
        | _ => Option.none
      else parseNum (c :: X)) := by
  simp only [parseVal]
  rw [skipWs_not_ws hw]

theorem parseVal_num (f : Nat) (c : Char) (X : List Char) (hw : isJsonWs c = false)
    (h1 : ¬c = '[') (h2 : ¬c = '"') (h3 : ¬c = lbrace) (h4 : ¬c = 't') (h5 : ¬c = 'f')
    (h6 : ¬c = 'n') :
    parseVal (f + 1) (c :: X) = parseNum (c :: X) := by
  rw [parseVal_cons f c X hw, if_neg h1, if_neg h2, if_neg h3, if_neg h4, if_neg h5,
    if_neg h6]

theorem parseVal_bracket_cons (f : Nat) (c : Char) (Y : List Char)
    (hw : isJsonWs c = false) (hc : ¬c = ']') :
    parseVal (f + 1) ('[' :: (c :: Y))
      = (parseElems f (c :: Y)).map (fun p => (.list p.1, p.2)) := by
  rw [parseVal_bracket, skipWs_not_ws hw]
  show (if c = ']' then Option.some (PyVal.list .nil, Y)
      else (parseElems f (c :: Y)).map (fun p => (PyVal.list p.1, p.2)))
    = (parseElems f (c :: Y)).map (fun p => (PyVal.list p.1, p.2))
  rw [if_neg hc]

theorem parseVal_brace_cons (f : Nat) (c : Char) (Y : List Char)
    (hw : isJsonWs c = false) (hc : ¬c = rbrace) :
    parseVal (f + 1) (lbrace :: (c :: Y))
      = (parseMembers f (c :: Y)).map
          (fun p => (.dict (PyDict.pyInsertAll .nil p.1), p.2)) := by
  rw [parseVal_brace, skipWs_not_ws hw]
  show (if c = rbrace then Option.some (PyVal.dict .nil, Y)
      else (parseMembers f (c :: Y)).map
        (fun p => (PyVal.dict (PyDict.pyInsertAll .nil p.1), p.2)))
    = (parseMembers f (c :: Y)).map
        (fun p => (PyVal.dict (PyDict.pyInsertAll .nil p.1), p.2))
  rw [if_neg hc]

/-- Round trip, by induction on the parser fuel: parsing the serialised form
of a round-trippable value consumes exactly that text and rebuilds the
value. -/
theorem parse_dumps (fuel : Nat) :
    (∀ (v : PyVal) (ds : List Char), goodVal v = true → dumpsVal v = Option.some ds →
      ∀ (rest : List Char), restSafeB rest = true → pvFuel v ≤ fuel →
        parseVal fuel (ds ++ rest) = Option.some (v, rest)) ∧
    (∀ (xs : PyList) (ds : List Char), goodList xs = true →
        dumpsElems xs = Option.some ds → xs ≠ .nil →
      ∀ (rest : List Char), elemsFuel xs ≤ fuel →
        parseElems fuel (ds ++ ']' :: rest) = Option.some (xs, rest)) ∧
    (∀ (kvs : PyDict) (ds : List Char), goodMembers kvs = true →
        dumpsMembers kvs = Option.some ds → kvs ≠ .nil →
      ∀ (rest : List Char), membersFuel kvs ≤ fuel →
        parseMembers fuel (ds ++ rbrace :: rest) = Option.some (kvs, rest)) := by
  induction fuel with
  | zero =>
      refine ⟨?_, ?_, ?_⟩
      · intro v ds _ _ rest _ hf
        have := pvFuel_pos v
        omega
      · intro xs ds _ _ _ rest hf
        have := elemsFuel_pos xs
        omega
      · intro kvs ds _ _ _ rest hf
        have := membersFuel_pos kvs
        omega
  | succ fuel ih =>
      obtain ⟨ihV, ihE, ihM⟩ := ih
      refine ⟨?_, ?_, ?_⟩
      · -- values
        intro v ds hg hd rest hsafe hfuel
        cases v with
        | none =>
            simp only [dumpsVal, Option.some.injEq] at hd
            subst hd
            rfl
        | bool b =>
            cases b <;> simp only [dumpsVal, Option.some.injEq] at hd <;> subst hd <;> rfl
        | int n =>
            simp only [dumpsVal, Option.some.injEq] at hd
            subst hd
            obtain ⟨c, cs, hc, hor⟩ := intRepr_head n
            obtain ⟨hw, h1, h2, h3, h4, h5, h6, _, _⟩ := numHead_facts hor
            rw [hc, List.cons_append, parseVal_num fuel c _ hw h1 h2 h3 h4 h5 h6,
              ← List.cons_append, ← hc, parseNum_intRepr n rest hsafe]
        | str s =>
            simp only [dumpsVal, Option.some.injEq] at hd
            subst hd
            have hsh : escStr s ++ rest = '"' :: (s.flatMap escChar ++ '"' :: rest) := by
              simp [escStr]
            rw [hsh, parseVal_str, parseJStr_escape s rest]
            rfl
        | list xs =>
            cases xs with
            | nil =>
                have hds : ds = ['[', ']'] := by
                  simp only [dumpsVal, dumpsElems, Option.map_some', Option.some.injEq]
                    at hd
                  simpa using hd.symm
                subst hds
                rfl
            | cons v2 tail =>
                simp only [dumpsVal] at hd
                obtain ⟨e, he1, he2⟩ := Option.map_eq_some'.mp hd
                have hgl : goodList (.cons v2 tail) = true := by
                  simpa [goodVal] using hg
                have hg2 : goodVal v2 = true := by
                  rw [goodList, Bool.and_eq_true] at hgl
                  exact hgl.1
                have hdvshape : ∃ dv esuf, dumpsVal v2 = Option.some dv
                    ∧ e = dv ++ esuf := by
                  cases tail with
                  | nil => exact ⟨e, [], dumpsElems_cons_nil he1, by simp⟩
                  | cons v3 tail3 =>
                      obtain ⟨dv, dr, hdv, _, hds⟩ := dumpsElems_cons_cons he1
                      exact ⟨dv, ',' :: ' ' :: dr, hdv, hds⟩
                obtain ⟨dv, esuf, hdv, hesh⟩ := hdvshape
                obtain ⟨c, cs, hcc, hwc, hc1, _⟩ := dumps_head hg2 hdv
                have hEe : e ++ ']' :: rest = c :: ((cs ++ esuf) ++ ']' :: rest) := by
                  rw [hesh, hcc]
                  simp
                have hsh : ds ++ rest = '[' :: (c :: ((cs ++ esuf) ++ ']' :: rest)) := by
                  rw [← he2, ← hEe]
                  simp
                rw [hsh, parseVal_bracket_cons fuel c _ hwc hc1, ← hEe]
                have hfl : elemsFuel (.cons v2 tail) ≤ fuel := by
                  have h9 : pvFuel (.list (.cons v2 tail))
                      = 1 + elemsFuel (.cons v2 tail) := by
                    simp [pvFuel]
                  omega
                rw [ihE (.cons v2 tail) e hgl he1 (by simp) rest hfl]
                rfl
        | tuple xs => exact absurd hg (by simp [goodVal])
        | dict kvs =>
            cases kvs with
            | nil =>
                have hds : ds = [lbrace, rbrace] := by
                  simp only [dumpsVal, dumpsMembers, Option.map_some', Option.some.injEq]
                    at hd
                  simpa using hd.symm
                subst hds
                rfl
            | cons k v2 tail =>
                simp only [dumpsVal] at hd
                obtain ⟨e, he1, he2⟩ := Option.map_eq_some'.mp hd
                have hgm : goodMembers (.cons k v2 tail) = true := by
                  rw [goodVal, Bool.and_eq_true] at hg
                  exact hg.1
                have hnd : keysNodup (.cons k v2 tail) = true := by
                  rw [goodVal, Bool.and_eq_true] at hg
                  exact hg.2
                have hk : isStrKey k = true := by
                  rw [goodMembers, Bool.and_eq_true, Bool.and_eq_true] at hgm
                  exact hgm.1.1
                have heshape : ∃ ks esuf, k = PyVal.str ks ∧ e = escStr ks ++ esuf := by
                  cases tail with
                  | nil =>
                      obtain ⟨ks, dv, hks, _, hds⟩ := dumpsMembers_cons_nil hk he1
                      exact ⟨ks, _, hks, hds⟩
                  | cons k3 v3 tail3 =>
                      obtain ⟨ks, dv, dr, hks, _, _, hds⟩ := dumpsMembers_cons_cons hk he1
                      exact ⟨ks, ':' :: ' ' :: dv ++ ',' :: ' ' :: dr, hks,
                        by rw [hds, List.append_assoc]⟩
                obtain ⟨ks, esuf, hks, hesh⟩ := heshape
                have hEe : e ++ rbrace :: rest
                    = '"' :: ((ks.flatMap escChar ++ ['"'] ++ esuf)
                        ++ rbrace :: rest) := by
                  rw [hesh, escStr]
                  simp
                have hsh : ds ++ rest
                    = lbrace :: ('"' :: ((ks.flatMap escChar ++ ['"'] ++ esuf)
                        ++ rbrace :: rest)) := by
                  rw [← he2, ← hEe]
                  simp
                rw [hsh, parseVal_brace_cons fuel '"' _ (by decide) (by decide), ← hEe]
                have hfl : membersFuel (.cons k v2 tail) ≤ fuel := by
                  have h9 : pvFuel (.dict (.cons k v2 tail))
                      = 1 + membersFuel (.cons k v2 tail) := by
                    simp [pvFuel]
                  omega
                rw [ihM (.cons k v2 tail) e hgm he1 (by simp) rest hfl]
                simp only [Option.map_some']
                rw [pyInsertAll_nodup hgm hnd]
      · -- array elements
        intro xs ds hg hd hne rest hfuel
        cases xs with
        | nil => exact absurd rfl hne
        | cons v tail =>
            rw [goodList, Bool.and_eq_true] at hg
            cases tail with
            | nil =>
                have hdv := dumpsElems_cons_nil hd
                have hfv : pvFuel v ≤ fuel := by
                  simp only [elemsFuel] at hfuel
                  omega
                rw [parseElems_succ, ihV v ds hg.1 hdv (']' :: rest) rfl hfv]
                rfl
            | cons v2 tail2 =>
                obtain ⟨dv, dr, hdv, hdr, hds⟩ := dumpsElems_cons_cons hd
                subst hds
                have hsh : (dv ++ ',' :: ' ' :: dr) ++ ']' :: rest
                    = dv ++ (',' :: ' ' :: (dr ++ ']' :: rest)) := by simp
                have hfv : pvFuel v ≤ fuel := by
                  simp only [elemsFuel] at hfuel
                  omega
                have hfr : elemsFuel (.cons v2 tail2) ≤ fuel := by
                  simp only [elemsFuel] at hfuel ⊢
                  omega
                rw [parseElems_succ, hsh,
                  ihV v dv hg.1 hdv (',' :: ' ' :: (dr ++ ']' :: rest)) rfl hfv]
                show (match skipWs (',' :: ' ' :: (dr ++ ']' :: rest)) with
              | ',' :: r2 =>
                  (parseElems fuel r2).map (fun (p : PyList × List Char) => (PyList.cons v p.1, p.2))
              | ']' :: r2 => Option.some (PyList.cons v .nil, r2)
              | _ => Option.none) = _
                rw [skipWs_not_ws (by decide)]
                show (parseElems fuel (' ' :: (dr ++ ']' :: rest))).map
                    (fun (p : PyList × List Char) => (PyList.cons v p.1, p.2)) = _
                rw [parseElems_ws fuel (by decide) (dr ++ ']' :: rest),
                  ihE (.cons v2 tail2) dr hg.2 hdr (by simp) rest hfr]
                rfl
      · -- object members
        intro kvs ds hg hd hne rest hfuel
        cases kvs with
        | nil => exact absurd rfl hne
        | cons k v tail =>
            simp only [goodMembers, Bool.and_eq_true] at hg
            cases tail with
            | nil =>
                obtain ⟨ks, dv, hks, hdv, hds⟩ := dumpsMembers_cons_nil hg.1.1 hd
                subst hds
                subst hks
                have hsh : (escStr ks ++ ':' :: ' ' :: dv) ++ rbrace :: rest
                    = '"' :: (ks.flatMap escChar
                        ++ '"' :: (':' :: ' ' :: (dv ++ rbrace :: rest))) := by
                  simp [escStr]
                have hfv : pvFuel v ≤ fuel := by
                  simp only [membersFuel] at hfuel
                  omega
                rw [hsh, parseMembers_succ, parseJStr_escape ks _]
                show (match skipWs (':' :: ' ' :: (dv ++ rbrace :: rest)) with
              | ':' :: r3 =>
                  (match parseVal fuel r3 with
                    | Option.none => Option.none
                    | Option.some (v, r4) =>
                      match skipWs r4 with
                      | ',' :: r5 =>
                          (parseMembers fuel r5).map
                            (fun (p : PyDict × List Char) => (PyDict.cons (.str ks) v p.1, p.2))
                      | c :: r5 =>
                          if c = rbrace then
                            Option.some (.cons (.str ks) v .nil, r5)
                          else Option.none
                      | [] => Option.none)
              | _ => Option.none) = _
                rw [skipWs_not_ws (by decide)]
                show (match parseVal fuel (' ' :: (dv ++ rbrace :: rest)) with
                    | Option.none => Option.none
                    | Option.some (v, r4) =>
                      match skipWs r4 with
                      | ',' :: r5 =>
                          (parseMembers fuel r5).map
                            (fun (p : PyDict × List Char) => (PyDict.cons (.str ks) v p.1, p.2))
                      | c :: r5 =>
                          if c = rbrace then
                            Option.some (.cons (.str ks) v .nil, r5)
                          else Option.none
                      | [] => Option.none) = _
                rw [parseVal_ws fuel (by decide) (dv ++ rbrace :: rest),
                  ihV v dv hg.1.2 hdv (rbrace :: rest) rfl hfv]
                rfl
            | cons k2 v2 tail2 =>
                obtain ⟨ks, dv, dr, hks, hdv, hdr, hds⟩ :=
                  dumpsMembers_cons_cons hg.1.1 hd
                subst hds
                subst hks
                have hsh : (escStr ks ++ ':' :: ' ' :: dv ++ ',' :: ' ' :: dr)
                      ++ rbrace :: rest
                    = '"' :: (ks.flatMap escChar
                        ++ '"' :: (':' :: ' ' :: (dv
                          ++ ',' :: ' ' :: (dr ++ rbrace :: rest)))) := by
                  simp [escStr]
                have hfv : pvFuel v ≤ fuel := by
                  simp only [membersFuel] at hfuel
                  omega
                have hfr : membersFuel (.cons k2 v2 tail2) ≤ fuel := by
                  simp only [membersFuel] at hfuel ⊢
                  omega
                rw [hsh, parseMembers_succ, parseJStr_escape ks _]
                show (match skipWs (':' :: ' ' :: (dv
                        ++ ',' :: ' ' :: (dr ++ rbrace :: rest))) with
              | ':' :: r3 =>
                  (match parseVal fuel r3 with
                    | Option.none => Option.none
                    | Option.some (v, r4) =>
                      match skipWs r4 with
                      | ',' :: r5 =>
                          (parseMembers fuel r5).map
                            (fun (p : PyDict × List Char) => (PyDict.cons (.str ks) v p.1, p.2))
                      | c :: r5 =>
                          if c = rbrace then
                            Option.some (.cons (.str ks) v .nil, r5)
                          else Option.none
                      | [] => Option.none)
              | _ => Option.none) = _
                rw [skipWs_not_ws (by decide)]
                show (match parseVal fuel (' ' :: (dv
                        ++ ',' :: ' ' :: (dr ++ rbrace :: rest))) with
                    | Option.none => Option.none
                    | Option.some (v, r4) =>
                      match skipWs r4 with
                      | ',' :: r5 =>
                          (parseMembers fuel r5).map
                            (fun (p : PyDict × List Char) => (PyDict.cons (.str ks) v p.1, p.2))
                      | c :: r5 =>
                          if c = rbrace then
                            Option.some (.cons (.str ks) v .nil, r5)
                          else Option.none
                      | [] => Option.none) = _
                rw [parseVal_ws fuel (by decide) _,
                  ihV v dv hg.1.2 hdv
                    (',' :: ' ' :: (dr ++ rbrace :: rest)) rfl hfv]
                show (match skipWs (',' :: ' ' :: (dr ++ rbrace :: rest)) with
                      | ',' :: r5 =>
                          (parseMembers fuel r5).map
                            (fun (p : PyDict × List Char) => (PyDict.cons (.str ks) v p.1, p.2))
                      | c :: r5 =>
                          if c = rbrace then
                            Option.some (.cons (.str ks) v .nil, r5)
                          else Option.none
                      | [] => Option.none) = _
                rw [skipWs_not_ws (by decide)]
                show (parseMembers fuel (' ' :: (dr ++ rbrace :: rest))).map
                    (fun (p : PyDict × List Char) => (PyDict.cons (.str ks) v p.1, p.2)) = _
                rw [parseMembers_ws fuel (by decide) (dr ++ rbrace :: rest),
                  ihM (.cons k2 v2 tail2) dr hg.2 hdr (by simp) rest hfr]
                rfl

/-- Mutual structural induction over the three Python value types. -/
theorem pyMutualInduction
    {mv : PyVal → Prop} {ml : PyList → Prop} {md : PyDict → Prop}
    (hnone : mv .none) (hbool : ∀ b, mv (.bool b)) (hint : ∀ n, mv (.int n))
    (hstr : ∀ s, mv (.str s))
    (hlist : ∀ xs, ml xs → mv (.list xs))
    (htuple : ∀ xs, ml xs → mv (.tuple xs))
    (hdict : ∀ kvs, md kvs → mv (.dict kvs))
    (hlnil : ml .nil) (hlcons : ∀ v rest, mv v → ml rest → ml (.cons v rest))
    (hdnil : md .nil)
    (hdcons : ∀ k v rest, mv k → mv v → md rest → md (.cons k v rest)) :
    (∀ v, mv v) ∧ (∀ xs, ml xs) ∧ (∀ kvs, md kvs) := by
  refine ⟨fun v => ?_, fun xs => ?_, fun kvs => ?_⟩
  · exact pyIndV v
  · exact pyIndL xs
  · exact pyIndD kvs
where
  pyIndV : ∀ v, mv v
    | .none => hnone
    | .bool b => hbool b
    | .int n => hint n
    | .str s => hstr s
    | .list xs => hlist xs (pyIndL xs)
    | .tuple xs => htuple xs (pyIndL xs)
    | .dict kvs => hdict kvs (pyIndD kvs)
  pyIndL : ∀ xs, ml xs
    | .nil => hlnil
    | .cons v rest => hlcons v rest (pyIndV v) (pyIndL rest)
  pyIndD : ∀ kvs, md kvs
    | .nil => hdnil
    | .cons k v rest => hdcons k v rest (pyIndV k) (pyIndV v) (pyIndD rest)

/-- The parser fuel needed for a value is bounded by the length of its
serialised form. -/
theorem pvFuel_le_length :
    (∀ v : PyVal, ∀ ds, goodVal v = true → dumpsVal v = Option.some ds →
      pvFuel v ≤ ds.length) ∧
    (∀ xs : PyList, ∀ ds, goodList xs = true → dumpsElems xs = Option.some ds →
      xs ≠ .nil → elemsFuel xs ≤ ds.length + 1) ∧
    (∀ kvs : PyDict, ∀ ds, goodMembers kvs = true → dumpsMembers kvs = Option.some ds →
      kvs ≠ .nil → membersFuel kvs ≤ ds.length + 1) := by
  refine pyMutualInduction ?_ ?_ ?_ ?_ ?_ ?_ ?_ ?_ ?_ ?_ ?_
  · intro ds _ hd
    simp only [dumpsVal, Option.some.injEq] at hd
    rw [← hd]
    simp [pvFuel, pystr]
  · intro b ds _ hd
    cases b <;> simp only [dumpsVal, Option.some.injEq] at hd <;> rw [← hd] <;>
      simp [pvFuel, pystr]
  · intro n ds _ hd
    simp only [dumpsVal, Option.some.injEq] at hd
    rw [← hd]
    have := natRepr_ne_nil n.toNat
    rw [intRepr]
    by_cases hneg : n < 0
    · simp [hneg, pvFuel]
    · rw [if_neg hneg]
      obtain ⟨c, cs, hc⟩ := List.exists_cons_of_ne_nil (natRepr_ne_nil n.toNat)
      simp [hc, pvFuel]
  · intro s ds _ hd
    simp only [dumpsVal, Option.some.injEq] at hd
    rw [← hd]
    simp [pvFuel, escStr]
  · intro xs ih ds hg hd
    cases xs with
    | nil =>
        simp only [dumpsVal, dumpsElems, Option.map_some', Option.some.injEq] at hd
        rw [← hd]
        simp [pvFuel]
    | cons v tail =>
        simp only [dumpsVal] at hd
        obtain ⟨e, he1, he2⟩ := Option.map_eq_some'.mp hd
        have hgl : goodList (.cons v tail) = true := by simpa [goodVal] using hg
        have hfe := ih e hgl he1 (by simp)
        have hlen : ds.length = e.length + 2 := by
          rw [← he2]
          simp
        have hpf : pvFuel (.list (.cons v tail)) = 1 + elemsFuel (.cons v tail) := by
          simp [pvFuel]
        omega
  · intro xs _ ds hg _
    exact absurd hg (by simp [goodVal])
  · intro kvs ih ds hg hd
    cases kvs with
    | nil =>
        simp only [dumpsVal, dumpsMembers, Option.map_some', Option.some.injEq] at hd
        rw [← hd]
        simp [pvFuel]
    | cons k v tail =>
        simp only [dumpsVal] at hd
        obtain ⟨e, he1, he2⟩ := Option.map_eq_some'.mp hd
        have hgm : goodMembers (.cons k v tail) = true := by
          rw [goodVal, Bool.and_eq_true] at hg
          exact hg.1
        have hfe := ih e hgm he1 (by simp)
        have hlen : ds.length = e.length + 2 := by
          rw [← he2]
          simp
        have hpf : pvFuel (.dict (.cons k v tail))
            = 1 + membersFuel (.cons k v tail) := by
          simp [pvFuel]
        omega
  · intro ds _ _ hne
    exact absurd rfl hne
  · intro v rest ihv ihrest ds hg hd _
    rw [goodList, Bool.and_eq_true] at hg
    cases rest with
    | nil =>
        have hdv := dumpsElems_cons_nil hd
        have := ihv ds hg.1 hdv
        have he : elemsFuel (.cons v .nil) = 1 + pvFuel v := by simp [elemsFuel]
        omega
    | cons v2 tail2 =>
        obtain ⟨dv, dr, hdv, hdr, hds⟩ := dumpsElems_cons_cons hd
        have h1 := ihv dv hg.1 hdv
        have h2 := ihrest dr hg.2 hdr (by simp)
        have hlen : ds.length = dv.length + dr.length + 2 := by
          rw [hds]
          simp
          omega
        have he : elemsFuel (.cons v (.cons v2 tail2))
            = 1 + max (pvFuel v) (elemsFuel (.cons v2 tail2)) := by
          simp [elemsFuel]
        omega
  · intro ds _ _ hne
    exact absurd rfl hne
  · intro k v rest _ ihv ihrest ds hg hd _
    simp only [goodMembers, Bool.and_eq_true] at hg
    cases rest with
    | nil =>
        obtain ⟨ks, dv, _, hdv, hds⟩ := dumpsMembers_cons_nil hg.1.1 hd
        have h1 := ihv dv hg.1.2 hdv
        have hlen : ds.length = (escStr ks).length + dv.length + 2 := by
          rw [hds]
          simp
          omega
        have he : membersFuel (.cons k v .nil) = 1 + pvFuel v := by simp [membersFuel]
        omega
    | cons k2 v2 tail2 =>
        obtain ⟨ks, dv, dr, _, hdv, hdr, hds⟩ := dumpsMembers_cons_cons hg.1.1 hd
        have h1 := ihv dv hg.1.2 hdv
        have h2 := ihrest dr hg.2 hdr (by simp)
        have hlen : ds.length
            = (escStr ks).length + dv.length + dr.length + 4 := by
          rw [hds]
          simp
          omega
        have he : membersFuel (.cons k v (.cons k2 v2 tail2))
            = 1 + max (pvFuel v) (membersFuel (.cons k2 v2 tail2)) := by
          simp [membersFuel]
        omega

/-- `json.loads` inverts `json.dumps` on round-trippable values. -/
theorem loads_dumps {v : PyVal} {ds : List Char} (hg : goodVal v = true)
    (hd : dumpsVal v = Option.some ds) : loads ds = Option.some v := by
  have hb : pvFuel v ≤ ds.length + 1 := by
    have := pvFuel_le_length.1 v ds hg hd
    omega
  have hp := (parse_dumps (ds.length + 1)).1 v ds hg hd [] rfl hb
  rw [List.append_nil] at hp
  rw [loads, hp]
  rfl

/-! ## The `call` pipeline (ratlib/api/http.py, lines 83-160)

`call` is modelled as a function of the transport capability (§6 of the
spec: the `requests` functions).  `Except CallError PyVal` is its outcome:
`.api` values are the `ratlib` error taxonomy (each carrying the `code`,
`details` and `json` fields of the `APIError` base, with `PyVal.none` for an
argument left at its `None` default), `.pyExc` is an untyped Python
exception escaping `call`.  The returned list models the writes made to the
log sink when one is supplied (without a sink every write is a no-op with
identical control flow); each entry stands for one terminated, flushed
`print`.  Timestamps are not modelled. -/

/-- Error classes of the `ratlib` taxonomy. -/
inductive ErrCls where
  | apiError
  | badResponse
  | badJSON
  | httpError
  | unsupportedMethod
deriving DecidableEq

/-- An exception raised by `call`. -/
inductive CallError where
  | api (cls : ErrCls) (code : PyVal) (details : PyVal) (json : PyVal)
  | pyExc (e : PyExc)
deriving DecidableEq

/-- One write to the log sink. -/
inductive LogEntry where
  | pre (method : List Char) (uri : List Char) (body : PyVal)
  | post (status : Nat) (body : List Char)
  | excMsg (msg : List Char)
deriving DecidableEq

/-- ASCII uppercasing (`str.upper()`; method names are ASCII). -/
def pyUpper (s : List Char) : List Char := s.map Char.toUpper

/-- The resolved transport call: one of the three registry entries
(`requests.get` / `requests.put` / `requests.post`), or the generic
`requests.request` with an explicit method name. -/
inductive Dispatch where
  | get
  | put
  | post
  | generic (method : List Char)
deriving DecidableEq

/-- Dispatch resolution (lines 120-123): the registry
`request_methods = {GET, PUT, POST}` is probed with the method string **as
given**; every other method goes to `requests.request(method.upper(), ...)`. -/
def resolveDispatch (method : List Char) : Dispatch :=
  if method = pystr "GET" then .get
  else if method = pystr "PUT" then .put
  else if method = pystr "POST" then .post
  else .generic (pyUpper method)

/-- Dispatch resolution as the spec sentence words it (resolve by the
**uppercased** method name from the registry); written from the spec for
comparison with `resolveDispatch`. -/
def resolveDispatchClaim (method : List Char) : Dispatch :=
  if pyUpper method = pystr "GET" then .get
  else if pyUpper method = pystr "PUT" then .put
  else if pyUpper method = pystr "POST" then .post
  else .generic (pyUpper method)

/-- A transport response object: status code, decoded text (`Option.none`
when the body cannot be decoded as text) and the result of `.json()`
(`Option.none` models the `ValueError` of malformed JSON). -/
structure Response where
  status_code : Nat
  text : Option (List Char)
  jsonBody : Option PyVal
deriving DecidableEq

/-- Outcome of the dispatched transport call: a response, a
`requests.exceptions.HTTPError` raised during dispatch (response attached,
status recorded), or another `RequestException` (connection failure and the
like). -/
inductive TransportResult where
  | ok (r : Response)
  | httpExc (status : Nat) (msg : List Char)
  | reqExc (msg : List Char)
deriving DecidableEq

/-- Additional headers, passed through to the transport. -/
abbrev Headers : Type := Option (List (List Char × List Char))

/-- The transport capability: resolved dispatch, URI, JSON payload,
headers. -/
abbrev Transport : Type := Dispatch → List Char → PyVal → Headers → TransportResult

/-- The `uri` argument: a string, or any other Python object (which line 97
passes to `urljoin` as a single chunk). -/
inductive UriArg where
  | str (s : List Char)
  | obj (v : PyVal)

/-- Line 96-97: a non-string `uri` is passed to `urljoin(uri)` — note, not
`urljoin(*uri)`: the whole object is the only chunk.  A falsy object is
skipped by the generator and the join is empty; a truthy object is yielded
as-is and `"".join` raises `TypeError` on the non-string chunk. -/
def resolveUri : UriArg → Except PyExc (List Char)
  | .str s => .ok s
  | .obj v => if v.truthy then .error .typeError else .ok []

/-- Lines 100-101: `if type(data) == type(\x7b\x7d): data = json.dumps(data)`
(a dict body is serialised; every other body is kept as given; an absent
`data` keyword stays `None`). -/
def dumpStep : Option PyVal → Except PyExc PyVal
  | Option.none => .ok PyVal.none
  | Option.some v =>
      match v with
      | .dict kvs =>
          (match dumpsVal (.dict kvs) with
            | Option.some s => .ok (.str s)
            | Option.none => .error .typeError)
      | _ => .ok v

/-- Line 103: `json.loads(data or '\x7b\x7d')` — an absent or falsy body
becomes `'\x7b\x7d'`; a truthy non-string body makes `json.loads` raise
`TypeError`; a malformed JSON string raises `ValueError`. -/
def loadsStep (d : PyVal) : Except PyExc PyVal :=
  match (if d.truthy then d else .str [lbrace, rbrace]) with
  | .str s =>
      (match loads s with
        | Option.some j => .ok j
        | Option.none => .error .valueError)
  | _ => .error .typeError

/-- Lines 100-103: body normalisation, `dumpStep` then `loadsStep`. -/
def normalizeData (data : Option PyVal) : Except PyExc PyVal :=
  match dumpStep data with
  | .error e => .error e
  | .ok d => loadsStep d

/-- `if not statuses`: an absent or empty status set selects the default
policy. -/
def statusesFalsy : Option (List Nat) → Bool
  | Option.none => true
  | Option.some l => l.isEmpty

/-- The message of `requests.Response.raise_for_status`, which fires exactly
for status codes 400-599 (condensed: the real text also carries the reason
and the URL, which the model does not track; no claim inspects it). -/
def raiseForStatusMsg (status : Nat) : List Char :=
  natRepr status ++
    (if status < 500 then pystr " Client Error" else pystr " Server Error")

/-- The placeholder of line 143. -/
def undecodableBody : List Char := pystr "(unable to decode body)"

/-- Line 156, last step of the errors branch: read `err.get('name')` and
`err.get('message')` and raise `APIError` with the full parsed body. -/
def errFields (err result : PyVal) (logs : List LogEntry) :
    Except CallError PyVal × List LogEntry :=
  match pyDictGet err (.str (pystr "name")) with
  | .error e => (.error (.pyExc e), logs)
  | .ok nm =>
      match pyDictGet err (.str (pystr "message")) with
      | .error e => (.error (.pyExc e), logs)
      | .ok msg => (.error (.api .apiError nm msg result), logs)

/-- Line 155, `result['errors'][0]`: index the errors value at 0. -/
def errIndex (ev result : PyVal) (logs : List LogEntry) :
    Except CallError PyVal × List LogEntry :=
  match pySubscript ev (.int 0) with
  | .error e => (.error (.pyExc e), logs)
  | .ok err => errFields err result logs

/-- Lines 154-160: classify the parsed response body. -/
def classifyResult (result : PyVal) (logs : List LogEntry) :
    Except CallError PyVal × List LogEntry :=
  match pyContains result (.str (pystr "errors")) with
  | .error e => (.error (.pyExc e), logs)
  | .ok true =>
      (match pySubscript result (.str (pystr "errors")) with
        | .error e => (.error (.pyExc e), logs)
        | .ok ev => errIndex ev result logs)
  | .ok false =>
      match pyContains result (.str (pystr "data")) with
      | .error e => (.error (.pyExc e), logs)
      | .ok true => (.ok result, logs)
      | .ok false =>
          (.error (.api .badResponse PyVal.none
            (.str (pystr "Did not receive a data field in a non-error response."))
            result), logs)

/-- Lines 149-160: parse the response body (`response.json()`, raising
`BadJSONError` on a `ValueError`) and classify. -/
def afterStatus (r : Response) (logs : List LogEntry) :
    Except CallError PyVal × List LogEntry :=
  match r.jsonBody with
  | Option.none =>
      (.error (.api .badJSON (.str (pystr "2608"))
        (.str (pystr "API didn" ++ apos :: pystr "t return valid JSON."))
        PyVal.none), logs)
  | Option.some result => classifyResult result logs

/-- Lines 124-128 plus the classification that follows: once a response `r`
is in hand (two log writes are done), apply the status-code policy.  With no
(or an empty, hence falsy) status set, `raise_for_status` runs unless the
code is exactly 400, and it fires for codes 400-599; the raised
`exc.HTTPError` is re-raised as the `ratlib` `HTTPError` at line 130.  With
a non-empty set, any code outside it raises `HTTPError` with the
`Unexpected Status Code` message (line 128); that exception is a `ratlib`
error, not a `requests` one, so line 129 does not catch it. -/
def applyStatusPolicy (statuses : Option (List Nat)) (r : Response)
    (logs : List LogEntry) : Except CallError PyVal × List LogEntry :=
  if statusesFalsy statuses then
    if r.status_code ≠ 400 ∧ 400 ≤ r.status_code ∧ r.status_code < 600 then
      (.error (.api .httpError (.int r.status_code)
        (.str (raiseForStatusMsg r.status_code)) PyVal.none), logs)
    else afterStatus r logs
  else
    if r.status_code ∈ statuses.getD [] then afterStatus r logs
    else
      (.error (.api .httpError (.int r.status_code)
        (.str (pystr "Unexpected Status Code "
          ++ natRepr r.status_code)) PyVal.none), logs)

/-- Lines 105-148: the pre-request log write, the dispatched transport call,
and the `finally` block.  When dispatch itself raises `exc.HTTPError`,
`response` is still `None` and the `finally` block writes nothing; line 130
re-raises as the `ratlib` `HTTPError`.  On any other `RequestException` the
sub-message is logged (lines 132-135) and `BadResponseError()` is raised;
`response` is again `None`, so no post-log is written. -/
def dispatchPhase (transport : Transport) (method u : List Char) (d : PyVal)
    (statuses : Option (List Nat)) (headers : Headers) :
    Except CallError PyVal × List LogEntry :=
  let preLog := LogEntry.pre (pyUpper method) u d
  match transport (resolveDispatch method) u d headers with
  | .httpExc st msg =>
      (.error (.api .httpError (.int st) (.str msg) PyVal.none), [preLog])
  | .reqExc msg =>
      (.error (.api .badResponse PyVal.none PyVal.none PyVal.none),
        [preLog, .excMsg msg])
  | .ok r =>
      applyStatusPolicy statuses r
        [preLog, LogEntry.post r.status_code (r.text.getD undecodableBody)]

/-- The `call` pipeline (lines 83-160).  The second component is the list of
writes to the log sink. -/
def call (transport : Transport) (method : List Char) (uri : UriArg)
    (data : Option PyVal) (statuses : Option (List Nat)) (headers : Headers) :
    Except CallError PyVal × List LogEntry :=
  match resolveUri uri with
  | .error e => (.error (.pyExc e), [])
  | .ok u =>
      match normalizeData data with
      | .error e => (.error (.pyExc e), [])
      | .ok d => dispatchPhase transport method u d statuses headers

/-! ### Step lemmas for the `call` pipeline -/

theorem call_str (tr : Transport) (method u : List Char) (data : Option PyVal)
    (statuses : Option (List Nat)) (hdrs : Headers) :
    call tr method (.str u) data statuses hdrs
      = match normalizeData data with
        | .error e => (.error (.pyExc e), [])
        | .ok d => dispatchPhase tr method u d statuses hdrs := rfl

theorem call_str_ok (tr : Transport) (method u : List Char) (data : Option PyVal)
    (statuses : Option (List Nat)) (hdrs : Headers) (d : PyVal)
    (hdata : normalizeData data = .ok d) :
    call tr method (.str u) data statuses hdrs
      = dispatchPhase tr method u d statuses hdrs := by
  rw [call_str, hdata]

theorem call_str_exc (tr : Transport) (method u : List Char) (data : Option PyVal)
    (statuses : Option (List Nat)) (hdrs : Headers) (e : PyExc)
    (hdata : normalizeData data = .error e) :
    call tr method (.str u) data statuses hdrs = (.error (.pyExc e), []) := by
  rw [call_str, hdata]

theorem dispatchPhase_ok (tr : Transport) (method u : List Char) (d : PyVal)
    (statuses : Option (List Nat)) (hdrs : Headers) (r : Response)
    (htr : tr (resolveDispatch method) u d hdrs = .ok r) :
    dispatchPhase tr method u d statuses hdrs
      = applyStatusPolicy statuses r
          [LogEntry.pre (pyUpper method) u d,
           LogEntry.post r.status_code (r.text.getD undecodableBody)] := by
  unfold dispatchPhase
  rw [htr]

theorem dispatchPhase_httpExc (tr : Transport) (method u : List Char) (d : PyVal)
    (statuses : Option (List Nat)) (hdrs : Headers) (st : Nat) (msg : List Char)
    (htr : tr (resolveDispatch method) u d hdrs = .httpExc st msg) :
    dispatchPhase tr method u d statuses hdrs
      = (.error (.api .httpError (.int st) (.str msg) PyVal.none),
         [LogEntry.pre (pyUpper method) u d]) := by
  unfold dispatchPhase
  rw [htr]

theorem dispatchPhase_reqExc (tr : Transport) (method u : List Char) (d : PyVal)
    (statuses : Option (List Nat)) (hdrs : Headers) (msg : List Char)
    (htr : tr (resolveDispatch method) u d hdrs = .reqExc msg) :
    dispatchPhase tr method u d statuses hdrs
      = (.error (.api .badResponse PyVal.none PyVal.none PyVal.none),
         [LogEntry.pre (pyUpper method) u d, .excMsg msg]) := by
  unfold dispatchPhase
  rw [htr]

theorem applyStatusPolicy_default_raise (statuses : Option (List Nat))
    (r : Response) (logs : List LogEntry) (hs : statusesFalsy statuses = true)
    (hst : 401 ≤ r.status_code ∧ r.status_code < 600) :
    applyStatusPolicy statuses r logs
      = (.error (.api .httpError (.int r.status_code)
          (.str (raiseForStatusMsg r.status_code)) PyVal.none), logs) := by
  unfold applyStatusPolicy
  rw [if_pos hs, if_pos (by omega :
    r.status_code ≠ 400 ∧ 400 ≤ r.status_code ∧ r.status_code < 600)]

theorem applyStatusPolicy_default_pass (statuses : Option (List Nat))
    (r : Response) (logs : List LogEntry) (hs : statusesFalsy statuses = true)
    (hst : r.status_code ≤ 400 ∨ 600 ≤ r.status_code) :
    applyStatusPolicy statuses r logs = afterStatus r logs := by
  unfold applyStatusPolicy
  rw [if_pos hs, if_neg (by omega :
    ¬(r.status_code ≠ 400 ∧ 400 ≤ r.status_code ∧ r.status_code < 600))]

theorem applyStatusPolicy_supplied_mem (statuses : Option (List Nat))
    (r : Response) (logs : List LogEntry) (hs : statusesFalsy statuses = false)
    (hmem : r.status_code ∈ statuses.getD []) :
    applyStatusPolicy statuses r logs = afterStatus r logs := by
  unfold applyStatusPolicy
  rw [if_neg (by simp [hs]), if_pos hmem]

theorem applyStatusPolicy_supplied_notmem (statuses : Option (List Nat))
    (r : Response) (logs : List LogEntry) (hs : statusesFalsy statuses = false)
    (hmem : r.status_code ∉ statuses.getD []) :
    applyStatusPolicy statuses r logs
      = (.error (.api .httpError (.int r.status_code)
          (.str (pystr "Unexpected Status Code "
            ++ natRepr r.status_code)) PyVal.none), logs) := by
  unfold applyStatusPolicy
  rw [if_neg (by simp [hs]), if_neg hmem]

theorem afterStatus_badJSON (r : Response) (logs : List LogEntry)
    (hj : r.jsonBody = Option.none) :
    afterStatus r logs
      = (.error (.api .badJSON (.str (pystr "2608"))
          (.str (pystr "API didn" ++ apos :: pystr "t return valid JSON."))
          PyVal.none), logs) := by
  unfold afterStatus
  rw [hj]

theorem afterStatus_some (r : Response) (logs : List LogEntry) (res : PyVal)
    (hj : r.jsonBody = Option.some res) :
    afterStatus r logs = classifyResult res logs := by
  unfold afterStatus
  rw [hj]

theorem afterStatus_errors (r : Response) (logs : List LogEntry) (kvs : PyDict)
    (ev err nm msg : PyVal)
    (hj : r.jsonBody = Option.some (.dict kvs))
    (hl : kvs.lookup (.str (pystr "errors")) = Option.some ev)
    (h0 : pySubscript ev (.int 0) = .ok err)
    (hnm : pyDictGet err (.str (pystr "name")) = .ok nm)
    (hmsg : pyDictGet err (.str (pystr "message")) = .ok msg) :
    afterStatus r logs = (.error (.api .apiError nm msg (.dict kvs)), logs) := by
  have hk : pyContains (.dict kvs) (.str (pystr "errors")) = .ok true := by
    show Except.ok (kvs.lookup (PyVal.str (pystr "errors"))).isSome = Except.ok true
    rw [hl]
    rfl
  have hsub : pySubscript (.dict kvs) (.str (pystr "errors")) = .ok ev := by
    show (match kvs.lookup (PyVal.str (pystr "errors")) with
      | Option.some v => Except.ok v
      | Option.none => Except.error PyExc.keyError) = Except.ok ev
    rw [hl]
  rw [afterStatus_some r logs _ hj]
  have e1 : classifyResult (.dict kvs) logs = errIndex ev (.dict kvs) logs := by
    unfold classifyResult
    rw [hk, hsub]
  have e2 : errIndex ev (.dict kvs) logs = errFields err (.dict kvs) logs := by
    unfold errIndex
    rw [h0]
  rw [e1, e2]
  unfold errFields
  rw [hnm, hmsg]

theorem afterStatus_data (r : Response) (logs : List LogEntry) (res : PyVal)
    (hj : r.jsonBody = Option.some res)
    (herr : pyContains res (.str (pystr "errors")) = .ok false)
    (hdat : pyContains res (.str (pystr "data")) = .ok true) :
    afterStatus r logs = (.ok res, logs) := by
  rw [afterStatus_some r logs _ hj]
  unfold classifyResult
  rw [herr, hdat]

theorem errFields_logs (err result : PyVal) (logs : List LogEntry) :
    (errFields err result logs).2 = logs := by
  unfold errFields
  repeat' split
  all_goals rfl

theorem errIndex_logs (ev result : PyVal) (logs : List LogEntry) :
    (errIndex ev result logs).2 = logs := by
  unfold errIndex
  split
  · rfl
  · exact errFields_logs _ _ _

theorem classifyResult_logs (result : PyVal) (logs : List LogEntry) :
    (classifyResult result logs).2 = logs := by
  unfold classifyResult
  repeat' split
  all_goals first
    | rfl
    | exact errIndex_logs _ _ _

theorem afterStatus_logs (r : Response) (logs : List LogEntry) :
    (afterStatus r logs).2 = logs := by
  unfold afterStatus
  split
  · rfl
  · exact classifyResult_logs _ _

theorem applyStatusPolicy_logs (statuses : Option (List Nat)) (r : Response)
    (logs : List LogEntry) : (applyStatusPolicy statuses r logs).2 = logs := by
  unfold applyStatusPolicy
  split
  · split
    · rfl
    · exact afterStatus_logs r logs
  · split
    · exact afterStatus_logs r logs
    · rfl

/-! ### Totality of `json.dumps` on round-trippable values -/

theorem dumps_total :
    (∀ v : PyVal, goodVal v = true → (dumpsVal v).isSome = true) ∧
    (∀ xs : PyList, goodList xs = true → (dumpsElems xs).isSome = true) ∧
    (∀ kvs : PyDict, goodMembers kvs = true → (dumpsMembers kvs).isSome = true) := by
  refine pyMutualInduction ?_ ?_ ?_ ?_ ?_ ?_ ?_ ?_ ?_ ?_ ?_
  · intro _
    rfl
  · intro b _
    cases b <;> rfl
  · intro n _
    rfl
  · intro s _
    rfl
  · intro xs ih hg
    have hx : goodList xs = true := by simpa [goodVal] using hg
    obtain ⟨e, he⟩ := Option.isSome_iff_exists.mp (ih hx)
    simp [dumpsVal, he]
  · intro xs _ hg
    simp [goodVal] at hg
  · intro kvs ih hg
    have hm : goodMembers kvs = true := by
      simp only [goodVal, Bool.and_eq_true] at hg
      exact hg.1
    obtain ⟨e, he⟩ := Option.isSome_iff_exists.mp (ih hm)
    simp [dumpsVal, he]
  · intro _
    rfl
  · intro v rest ihv ihr hg
    have hgv : goodVal v = true ∧ goodList rest = true := by
      simpa [goodList, Bool.and_eq_true] using hg
    obtain ⟨dv, hdv⟩ := Option.isSome_iff_exists.mp (ihv hgv.1)
    cases rest with
    | nil => simp [dumpsElems, hdv]
    | cons w ws =>
        obtain ⟨dr, hdr⟩ := Option.isSome_iff_exists.mp (ihr hgv.2)
        simp [dumpsElems, hdv, hdr]
  · intro _
    rfl
  · intro k v rest _ ihv ihr hg
    have hgs : isStrKey k = true ∧ goodVal v = true ∧ goodMembers rest = true := by
      simpa [goodMembers, Bool.and_eq_true, and_assoc] using hg
    obtain ⟨ks, hks, hdk⟩ := dumpsKey_str hgs.1
    obtain ⟨dv, hdv⟩ := Option.isSome_iff_exists.mp (ihv hgs.2.1)
    cases rest with
    | nil => simp [dumpsMembers, hdk, hdv]
    | cons k2 v2 tail =>
        obtain ⟨dr, hdr⟩ := Option.isSome_iff_exists.mp (ihr hgs.2.2)
        simp [dumpsMembers, hdk, hdv, hdr]

/-! ### `normalizeData` step lemmas -/

theorem dumpStep_dict (kvs : PyDict) (ds : List Char)
    (hds : dumpsVal (.dict kvs) = Option.some ds) :
    dumpStep (Option.some (.dict kvs)) = .ok (.str ds) := by
  show (match dumpsVal (.dict kvs) with
    | Option.some s => Except.ok (PyVal.str s)
    | Option.none => Except.error PyExc.typeError) = Except.ok (PyVal.str ds)
  rw [hds]

theorem loadsStep_str (s : List Char) (hne : s ≠ []) :
    loadsStep (.str s)
      = (match loads s with
          | Option.some j => Except.ok j
          | Option.none => Except.error PyExc.valueError) := by
  unfold loadsStep
  rw [if_pos (by simpa [PyVal.truthy] using hne)]

/-- Normalising a round-trippable dict body is the identity on it
(serialise, then re-parse). -/
theorem normalizeData_dict (kvs : PyDict) (hg : goodVal (.dict kvs) = true) :
    normalizeData (Option.some (.dict kvs)) = .ok (.dict kvs) := by
  obtain ⟨ds, hds⟩ := Option.isSome_iff_exists.mp (dumps_total.1 _ hg)
  obtain ⟨c, cs, hc, -, -, -⟩ := dumps_head hg hds
  have hl : loads ds = Option.some (.dict kvs) := loads_dumps hg hds
  unfold normalizeData
  rw [dumpStep_dict kvs ds hds]
  show loadsStep (PyVal.str ds) = Except.ok (PyVal.dict kvs)
  rw [loadsStep_str ds (by rw [hc]; exact List.cons_ne_nil c cs), hl]

/-- Normalising an absent body yields the empty dict (`json.loads('\x7b\x7d')`). -/
theorem normalizeData_none : normalizeData Option.none = .ok (.dict .nil) := rfl

/-! ### Concrete transports and bodies for the claim instances -/

instance exceptDecEq {e a : Type} [DecidableEq e] [DecidableEq a] :
    DecidableEq (Except e a) := fun x y =>
  match x, y with
  | .ok v, .ok w => decidable_of_iff (v = w) (by simp)
  | .error v, .error w => decidable_of_iff (v = w) (by simp)
  | .ok _, .error _ => isFalse (by simp)
  | .error _, .ok _ => isFalse (by simp)

/-- A response record from its three fields. -/
def resp (st : Nat) (txt : Option (List Char)) (j : Option PyVal) : Response :=
  { status_code := st, text := txt, jsonBody := j }

/-- A transport that always produces the same response. -/
def constT (r : Response) : Transport := fun _ _ _ _ => .ok r

/-- A transport that always fails with a non-HTTP `RequestException`. -/
def reqExcT (msg : List Char) : Transport := fun _ _ _ _ => .reqExc msg

/-- The first (and only) entry of the spec test vector's errors array:
`\x7b"name": "E1", "message": "missing"\x7d`. -/
def errEntry : PyDict :=
  .cons (.str (pystr "name")) (.str (pystr "E1"))
    (.cons (.str (pystr "message")) (.str (pystr "missing")) .nil)

/-- The members of the error envelope the spec uses as its test vector. -/
def errKvs : PyDict :=
  .cons (.str (pystr "errors")) (.list (.cons (.dict errEntry) .nil)) .nil

/-- The error envelope body itself. -/
def errBody : PyVal := .dict errKvs

/-- A well-formed success body with a `data` field. -/
def dataBody : PyVal := .dict (.cons (.str (pystr "data")) (.dict .nil) .nil)

/-- Line 52: the keys of the verb registry. -/
def request_methods : List (List Char) := [pystr "GET", pystr "PUT", pystr "POST"]

/-! ### Claim C1 -/

/-- C1, counterexample.  With no status set, the status policy of lines
124-126 runs **before** the errors check of line 154: the spec's own test
vector — a status-404 response whose body is the errors envelope — raises
`HTTPError` with code 404 from `raise_for_status`, not the `APIError`
carrying code `"E1"` and details `"missing"` that the claim promises. -/
theorem C1_counterexample :
    (call (constT (resp 404 (Option.some (pystr "body")) (Option.some errBody)))
      (pystr "GET") (.str (pystr "api/rescues")) Option.none Option.none
      Option.none).1
      = .error (.api .httpError (.int 404) (.str (raiseForStatusMsg 404)) PyVal.none)
    ∧ CallError.api .httpError (.int 404) (.str (raiseForStatusMsg 404)) PyVal.none
        ≠ .api .apiError (.str (pystr "E1")) (.str (pystr "missing")) errBody :=
  ⟨rfl, by decide⟩

/-- C1 (amended): with no acceptable-status set, the errors field takes
precedence over the `data` check for every response **that the default
status policy accepts** (status ≤ 400 or ≥ 600): when its parsed body is a
dict whose `errors` entry yields a first element with `name` and `message`,
`call` raises `APIError` with that name as code and that message as details
and the full parsed JSON attached. -/
theorem C1_errors_amended (tr : Transport) (method u : List Char)
    (data : Option PyVal) (hdrs : Headers) (d : PyVal) (r : Response)
    (kvs : PyDict) (ev err nm msg : PyVal)
    (hdata : normalizeData data = .ok d)
    (htr : tr (resolveDispatch method) u d hdrs = .ok r)
    (hst : r.status_code ≤ 400 ∨ 600 ≤ r.status_code)
    (hj : r.jsonBody = Option.some (.dict kvs))
    (hl : kvs.lookup (.str (pystr "errors")) = Option.some ev)
    (h0 : pySubscript ev (.int 0) = .ok err)
    (hnm : pyDictGet err (.str (pystr "name")) = .ok nm)
    (hmsg : pyDictGet err (.str (pystr "message")) = .ok msg) :
    (call tr method (.str u) data Option.none hdrs).1
      = .error (.api .apiError nm msg (.dict kvs)) := by
  rw [call_str_ok _ _ _ _ _ _ _ hdata, dispatchPhase_ok _ _ _ _ _ _ _ htr,
    applyStatusPolicy_default_pass Option.none _ _ rfl hst,
    afterStatus_errors _ _ _ _ _ _ _ hj hl h0 hnm hmsg]

/-- Witness for C1: the spec's envelope at status 400 (which the default
policy accepts) does raise `APIError("E1", "missing")`. -/
theorem C1_errors_amended_witness :
    (call (constT (resp 400 (Option.some (pystr "body")) (Option.some errBody)))
      (pystr "GET") (.str (pystr "api/rescues")) Option.none Option.none
      Option.none).1
      = .error (.api .apiError (.str (pystr "E1")) (.str (pystr "missing")) errBody) :=
  C1_errors_amended
    (constT (resp 400 (Option.some (pystr "body")) (Option.some errBody)))
    (pystr "GET") (pystr "api/rescues") Option.none Option.none (.dict .nil)
    (resp 400 (Option.some (pystr "body")) (Option.some errBody))
    errKvs (.list (.cons (.dict errEntry) .nil)) (.dict errEntry)
    (.str (pystr "E1")) (.str (pystr "missing"))
    rfl rfl (Or.inl (by decide)) rfl rfl rfl rfl rfl

/-! ### Claim C3 -/

/-- C3, counterexample.  Two failing runs with a log sink that do not make
exactly two writes: a body that fails normalisation (a lone left brace) is
rejected at line 103, before either log write, so zero writes occur; a
non-HTTP transport failure writes the pre-request entry and the exception
sub-message (line 133) but never a post-response entry, so the writes are
two with the second not a post-response log. -/
theorem C3_counterexample :
    (call (constT (resp 200 (Option.some (pystr "ok")) (Option.some dataBody)))
      (pystr "GET") (.str (pystr "api")) (Option.some (.str [lbrace]))
      Option.none Option.none).2 = []
    ∧ (call (reqExcT (pystr "connection refused")) (pystr "GET")
        (.str (pystr "api")) Option.none Option.none Option.none).2
      = [LogEntry.pre (pystr "GET") (pystr "api") (.dict .nil),
         .excMsg (pystr "connection refused")] :=
  ⟨rfl, rfl⟩

/-- C3 (amended): when the body normalises and the transport returns a
response, exactly two writes occur, the pre-request entry then the
post-response entry, whatever the status policy and classification decide. -/
theorem C3_logs_amended (tr : Transport) (method u : List Char)
    (data : Option PyVal) (statuses : Option (List Nat)) (hdrs : Headers)
    (d : PyVal) (r : Response)
    (hdata : normalizeData data = .ok d)
    (htr : tr (resolveDispatch method) u d hdrs = .ok r) :
    (call tr method (.str u) data statuses hdrs).2
      = [LogEntry.pre (pyUpper method) u d,
         LogEntry.post r.status_code (r.text.getD undecodableBody)] := by
  rw [call_str_ok _ _ _ _ _ _ _ hdata, dispatchPhase_ok _ _ _ _ _ _ _ htr,
    applyStatusPolicy_logs]

/-- Witness for C3: a plain 200 run writes the two entries. -/
theorem C3_logs_amended_witness :
    (call (constT (resp 200 (Option.some (pystr "ok")) (Option.some dataBody)))
      (pystr "GET") (.str (pystr "api")) Option.none Option.none Option.none).2
      = [LogEntry.pre (pystr "GET") (pystr "api") (.dict .nil),
         LogEntry.post 200 (pystr "ok")] :=
  C3_logs_amended (constT (resp 200 (Option.some (pystr "ok")) (Option.some dataBody)))
    (pystr "GET") (pystr "api") Option.none Option.none Option.none (.dict .nil)
    (resp 200 (Option.some (pystr "ok")) (Option.some dataBody)) rfl rfl

/-! ### Claim C5 -/

/-- C5, counterexample.  Status 600 is at least 401 and not 400, yet
`raise_for_status` only fires for codes 400-599: the call is treated as
non-error and returns the parsed body. -/
theorem C5_counterexample :
    (call (constT (resp 600 (Option.some (pystr "ok")) (Option.some dataBody)))
      (pystr "GET") (.str (pystr "api")) Option.none Option.none Option.none).1
      = .ok dataBody
    ∧ 401 ≤ 600 :=
  ⟨rfl, by decide⟩

/-- C5 (amended): with no status set, codes 401-599 raise the status-derived
`HTTPError`, while codes ≤ 400 — and also codes ≥ 600, outside the range
`raise_for_status` checks — proceed to response classification. -/
theorem C5_status_amended (tr : Transport) (method u : List Char)
    (data : Option PyVal) (hdrs : Headers) (d : PyVal) (r : Response)
    (hdata : normalizeData data = .ok d)
    (htr : tr (resolveDispatch method) u d hdrs = .ok r) :
    (401 ≤ r.status_code ∧ r.status_code < 600 →
      (call tr method (.str u) data Option.none hdrs).1
        = .error (.api .httpError (.int r.status_code)
            (.str (raiseForStatusMsg r.status_code)) PyVal.none)) ∧
    (r.status_code ≤ 400 ∨ 600 ≤ r.status_code →
      call tr method (.str u) data Option.none hdrs
        = afterStatus r [LogEntry.pre (pyUpper method) u d,
            LogEntry.post r.status_code (r.text.getD undecodableBody)]) := by
  constructor
  · intro hst
    rw [call_str_ok _ _ _ _ _ _ _ hdata, dispatchPhase_ok _ _ _ _ _ _ _ htr,
      applyStatusPolicy_default_raise Option.none _ _ rfl hst]
  · intro hst
    rw [call_str_ok _ _ _ _ _ _ _ hdata, dispatchPhase_ok _ _ _ _ _ _ _ htr,
      applyStatusPolicy_default_pass Option.none _ _ rfl hst]

/-- Witness for C5: status 503 raises `HTTPError(503)`. -/
theorem C5_status_amended_witness :
    (call (constT (resp 503 (Option.some (pystr "oops")) Option.none))
      (pystr "GET") (.str (pystr "api")) Option.none Option.none Option.none).1
      = .error (.api .httpError (.int 503) (.str (raiseForStatusMsg 503)) PyVal.none) :=
  (C5_status_amended (constT (resp 503 (Option.some (pystr "oops")) Option.none))
    (pystr "GET") (pystr "api") Option.none Option.none (.dict .nil)
    (resp 503 (Option.some (pystr "oops")) Option.none) rfl rfl).1 (by decide)

/-! ### Claim C6 -/

/-- C6: with a non-empty acceptable-status set supplied, a response whose
code is outside the set raises `HTTPError` carrying that code and the
`Unexpected Status Code` message.  (An *empty* set is falsy at line 124 and
falls back to the default policy, so the set is required non-empty, in line
with the docstring's "a set of acceptable HTTP response codes (including
200)".) -/
theorem C6_statuses (tr : Transport) (method u : List Char) (data : Option PyVal)
    (hdrs : Headers) (d : PyVal) (r : Response) (accept : List Nat)
    (hdata : normalizeData data = .ok d)
    (htr : tr (resolveDispatch method) u d hdrs = .ok r)
    (hne : accept ≠ [])
    (hmem : r.status_code ∉ accept) :
    (call tr method (.str u) data (Option.some accept) hdrs).1
      = .error (.api .httpError (.int r.status_code)
          (.str (pystr "Unexpected Status Code " ++ natRepr r.status_code))
          PyVal.none) := by
  have hsf : statusesFalsy (Option.some accept) = false := by
    cases accept with
    | nil => exact absurd rfl hne
    | cons a t => rfl
  rw [call_str_ok _ _ _ _ _ _ _ hdata, dispatchPhase_ok _ _ _ _ _ _ _ htr,
    applyStatusPolicy_supplied_notmem _ _ _ hsf hmem]

/-- Witness for C6: the spec's test vector, status 403 against `[200, 400]`. -/
theorem C6_statuses_witness :
    (call (constT (resp 403 (Option.some (pystr "denied")) (Option.some dataBody)))
      (pystr "GET") (.str (pystr "api")) Option.none (Option.some [200, 400])
      Option.none).1
      = .error (.api .httpError (.int 403)
          (.str (pystr "Unexpected Status Code " ++ natRepr 403)) PyVal.none) :=
  C6_statuses (constT (resp 403 (Option.some (pystr "denied")) (Option.some dataBody)))
    (pystr "GET") (pystr "api") Option.none Option.none (.dict .nil)
    (resp 403 (Option.some (pystr "denied")) (Option.some dataBody))
    [200, 400] rfl rfl (by decide) (by decide)

/-! ### Claim C7 -/

/-- C7, counterexample.  The dict `\x7b1: 2\x7d` is JSON-serialisable
(`json.dumps` coerces the integer key to the string `"1"`), so the claim
quantifies over it, but the round trip of lines 100-103 returns
`\x7b"1": 2\x7d`, which is not structurally equal to it. -/
theorem C7_counterexample :
    normalizeData (Option.some (.dict (.cons (.int 1) (.int 2) .nil)))
      = .ok (.dict (.cons (.str (pystr "1")) (.int 2) .nil))
    ∧ PyVal.dict (.cons (.str (pystr "1")) (.int 2) .nil)
        ≠ .dict (.cons (.int 1) (.int 2) .nil) :=
  ⟨rfl, by decide⟩

/-- C7 (amended): for every mapping whose keys are strings and pairwise
distinct (and whose values avoid tuples and non-string dict keys
throughout), the serialise-then-parse normalisation of lines 100-103 is the
identity, and an absent body normalises to the empty object. -/
theorem C7_roundtrip_amended (kvs : PyDict) (hg : goodVal (.dict kvs) = true) :
    normalizeData (Option.some (.dict kvs)) = .ok (.dict kvs)
    ∧ normalizeData Option.none = .ok (.dict .nil) :=
  ⟨normalizeData_dict kvs hg, rfl⟩

/-- Witness for C7: `\x7b"a": 1\x7d` survives the round trip unchanged. -/
theorem C7_roundtrip_amended_witness :
    normalizeData (Option.some (.dict (.cons (.str (pystr "a")) (.int 1) .nil)))
      = .ok (.dict (.cons (.str (pystr "a")) (.int 1) .nil)) :=
  (C7_roundtrip_amended _ (by decide)).1

/-! ### Claim C8 -/

/-- C8, counterexample.  Line 120 probes the registry with the method string
as given, not uppercased: `"get"` misses the registry and goes through the
generic `requests.request("GET", ...)` path, where the claim (rendered by
`resolveDispatchClaim`) promises the dedicated `requests.get` entry. -/
theorem C8_counterexample :
    resolveDispatch (pystr "get") = .generic (pystr "GET")
    ∧ resolveDispatchClaim (pystr "get") = .get
    ∧ resolveDispatch (pystr "get") ≠ resolveDispatchClaim (pystr "get") := by
  decide

/-- C8 (amended): the registry `\x7bGET, PUT, POST\x7d` is probed with the
method string exactly as given; every other method string — lowercase
spellings of the registry verbs included — falls back to the generic
transport call with the uppercased method name; and the outcome of `call`
depends on the transport only through its value at the resolved dispatch,
the URI, the normalised body and the supplied headers (all passed
through). -/
theorem C8_dispatch_amended (method u : List Char) (tr tr2 : Transport)
    (data : Option PyVal) (statuses : Option (List Nat)) (hdrs : Headers)
    (d : PyVal)
    (hdata : normalizeData data = .ok d)
    (hagree : tr (resolveDispatch method) u d hdrs
      = tr2 (resolveDispatch method) u d hdrs) :
    (method ∈ request_methods →
      resolveDispatch method
        = (if method = pystr "GET" then .get
           else if method = pystr "PUT" then .put else .post)) ∧
    (method ∉ request_methods → resolveDispatch method = .generic (pyUpper method)) ∧
    call tr method (.str u) data statuses hdrs
      = call tr2 method (.str u) data statuses hdrs := by
  refine ⟨?_, ?_, ?_⟩
  · intro hm
    simp only [request_methods, List.mem_cons, List.mem_singleton,
      List.not_mem_nil, or_false] at hm
    rcases hm with h | h | h <;> subst h <;> decide
  · intro hm
    have h1 : method ≠ pystr "GET" := fun h => hm (by simp [request_methods, h])
    have h2 : method ≠ pystr "PUT" := fun h => hm (by simp [request_methods, h])
    have h3 : method ≠ pystr "POST" := fun h => hm (by simp [request_methods, h])
    unfold resolveDispatch
    rw [if_neg h1, if_neg h2, if_neg h3]
  · rw [call_str_ok _ _ _ _ _ _ _ hdata, call_str_ok _ _ _ _ _ _ _ hdata]
    unfold dispatchPhase
    rw [hagree]

/-- Witness for C8: `"delete"` resolves to the generic path with the
uppercased name. -/
theorem C8_dispatch_amended_witness :
    resolveDispatch (pystr "delete") = .generic (pyUpper (pystr "delete")) :=
  (C8_dispatch_amended (pystr "delete") (pystr "u")
    (constT (resp 200 Option.none Option.none))
    (constT (resp 200 Option.none Option.none))
    Option.none Option.none Option.none (.dict .nil) rfl rfl).2.1 (by decide)

/-! ### Claim C4 -/

/-- The response shapes on which the checks of lines 154-157 do not
themselves raise an untyped Python exception: an unparsable body is fine
(it becomes `BadJSONError`); a parsed body must support the `in` test, and
when it has an `errors` entry, `result['errors'][0]` must exist and carry
`.get`. -/
def resultShapeOK (j : Option PyVal) : Bool :=
  match j with
  | Option.none => true
  | Option.some res =>
      match pyContains res (.str (pystr "errors")) with
      | .ok true =>
          (match pySubscript res (.str (pystr "errors")) with
            | .ok ev =>
                (match pySubscript ev (.int 0) with
                  | .ok err =>
                      (pyDictGet err (.str (pystr "name"))).isOk
                        && (pyDictGet err (.str (pystr "message"))).isOk
                  | .error _ => false)
            | .error _ => false)
      | .ok false => (pyContains res (.str (pystr "data"))).isOk
      | .error _ => false

theorem classifyResult_typed (res : PyVal) (logs : List LogEntry)
    (h : resultShapeOK (Option.some res) = true) :
    ∀ e, (classifyResult res logs).1 ≠ .error (.pyExc e) := by
  intro e
  have h2 : (match pyContains res (.str (pystr "errors")) with
      | .ok true =>
          (match pySubscript res (.str (pystr "errors")) with
            | .ok ev =>
                (match pySubscript ev (.int 0) with
                  | .ok err =>
                      (pyDictGet err (.str (pystr "name"))).isOk
                        && (pyDictGet err (.str (pystr "message"))).isOk
                  | .error _ => false)
            | .error _ => false)
      | .ok false => (pyContains res (.str (pystr "data"))).isOk
      | .error _ => false) = true := h
  clear h
  unfold classifyResult
  split at h2
  · rename_i heq
    rw [heq]
    split at h2
    · rename_i ev heq2
      rw [heq2]
      split at h2
      · rename_i err heq3
        show (errIndex ev res logs).1 ≠ Except.error (CallError.pyExc e)
        unfold errIndex
        rw [heq3]
        show (errFields err res logs).1 ≠ Except.error (CallError.pyExc e)
        unfold errFields
        simp only [Bool.and_eq_true] at h2
        cases h3 : pyDictGet err (.str (pystr "name")) with
        | error e1 =>
            rw [h3] at h2
            exact absurd h2.1 (fun hc => Bool.noConfusion hc)
        | ok nm =>
            cases h4 : pyDictGet err (.str (pystr "message")) with
            | error e2 =>
                rw [h4] at h2
                exact absurd h2.2 (fun hc => Bool.noConfusion hc)
            | ok msg => simp
      · simp at h2
    · simp at h2
  · rename_i heq
    rw [heq]
    cases hd : pyContains res (.str (pystr "data")) with
    | error e2 =>
        rw [hd] at h2
        exact absurd h2 (fun hc => Bool.noConfusion hc)
    | ok b => cases b <;> simp
  · simp at h2

theorem afterStatus_typed (r : Response) (logs : List LogEntry)
    (h : resultShapeOK r.jsonBody = true) :
    ∀ e, (afterStatus r logs).1 ≠ .error (.pyExc e) := by
  intro e
  unfold afterStatus
  cases hj : r.jsonBody with
  | none => simp
  | some res =>
      rw [hj] at h
      exact classifyResult_typed res logs h e

theorem applyStatusPolicy_typed (statuses : Option (List Nat)) (r : Response)
    (logs : List LogEntry) (h : resultShapeOK r.jsonBody = true) :
    ∀ e, (applyStatusPolicy statuses r logs).1 ≠ .error (.pyExc e) := by
  intro e
  unfold applyStatusPolicy
  split
  · split
    · simp
    · exact afterStatus_typed r logs h e
  · split
    · exact afterStatus_typed r logs h e
    · simp

/-- C4, counterexample.  Untyped Python exceptions escape `call`: a body
that is a malformed JSON string (a lone left brace) makes line 103 raise a
raw `ValueError`, and a truthy non-string `uri` — here the integer 5,
passed whole to `urljoin` at line 97 because the star is missing — makes
`"".join` raise a raw `TypeError`.  Neither belongs to the error taxonomy
the claim promises. -/
theorem C4_counterexample :
    (call (constT (resp 200 (Option.some (pystr "ok")) (Option.some dataBody)))
      (pystr "GET") (.str (pystr "api")) (Option.some (.str [lbrace]))
      Option.none Option.none).1
      = .error (.pyExc .valueError)
    ∧ (call (constT (resp 200 (Option.some (pystr "ok")) (Option.some dataBody)))
        (pystr "GET") (.obj (.int 5)) Option.none Option.none Option.none).1
      = .error (.pyExc .typeError) :=
  ⟨rfl, rfl⟩

/-- C4 (amended): when the URI is a string, the body normalises, and every
response the transport can return has a shape on which the response checks
do not themselves throw (`resultShapeOK`), each failure of `call` is one of
the typed errors of the taxonomy — no untyped Python exception escapes. -/
theorem C4_typed_amended (tr : Transport) (method u : List Char)
    (data : Option PyVal) (statuses : Option (List Nat)) (hdrs : Headers)
    (d : PyVal)
    (hdata : normalizeData data = .ok d)
    (hshape : ∀ r, tr (resolveDispatch method) u d hdrs = .ok r →
      resultShapeOK r.jsonBody = true) :
    ∀ e, (call tr method (.str u) data statuses hdrs).1 ≠ .error (.pyExc e) := by
  intro e
  rw [call_str_ok _ _ _ _ _ _ _ hdata]
  cases htr : tr (resolveDispatch method) u d hdrs with
  | httpExc st msg => rw [dispatchPhase_httpExc _ _ _ _ _ _ _ _ htr]; simp
  | reqExc msg => rw [dispatchPhase_reqExc _ _ _ _ _ _ _ htr]; simp
  | ok r =>
      rw [dispatchPhase_ok _ _ _ _ _ _ _ htr]
      exact applyStatusPolicy_typed statuses r _ (hshape r htr) e

/-- Witness for C4: with a well-shaped 404 response (no body), the failure
is the typed `HTTPError`, never an untyped exception. -/
theorem C4_typed_amended_witness :
    (call (constT (resp 404 Option.none Option.none)) (pystr "GET")
      (.str (pystr "api")) Option.none Option.none Option.none).1
      ≠ .error (.pyExc .valueError) :=
  C4_typed_amended (constT (resp 404 Option.none Option.none)) (pystr "GET")
    (pystr "api") Option.none Option.none Option.none (.dict .nil) rfl
    (fun r hr => by cases hr; rfl) .valueError

/-! ## The output filter (ratlib/sopel.py, lines 158-175)

`OutputFilterWrapper.transform` applies two `re.sub` replacements in order:
`(r)at(signal)` → `\g<1>@\g<2>` and `(cod|cas)e (r)e(d)` → `\g<1>3 \g<2>3\g<3>`,
both with `re.IGNORECASE`.  A regex scan is modelled directly: at each
position, try the fixed-length pattern case-insensitively; on a match, emit
the replacement (keeping the captured characters with their original case)
and continue after the match; otherwise emit the character and move on.
Case-insensitivity is modelled as ASCII case folding (`Char.toLower`); the
few non-ASCII characters Python's `re` additionally folds onto ASCII
letters are outside the model.  Patterns contain no regex metacharacters,
so matching is plain character comparison. -/

/-- Case-insensitive anchored match of a pattern (given lowercase) against
a prefix of the input. -/
def matchCI : List Char → List Char → Bool
  | [], _ => true
  | _ :: _, [] => false
  | p :: ps, c :: cs => (c.toLower == p) && matchCI ps cs

/-- The first pattern, `ratsignal`. -/
def pat1 : List Char := ['r', 'a', 't', 's', 'i', 'g', 'n', 'a', 'l']

/-- `pat1` minus its first character. -/
def pat1tail : List Char := ['a', 't', 's', 'i', 'g', 'n', 'a', 'l']

/-- The second pattern's first alternative, `code red`. -/
def pat2a : List Char := ['c', 'o', 'd', 'e', ' ', 'r', 'e', 'd']

/-- `pat2a` minus its first character. -/
def pat2atail : List Char := ['o', 'd', 'e', ' ', 'r', 'e', 'd']

/-- The second pattern's second alternative, `case red`. -/
def pat2b : List Char := ['c', 'a', 's', 'e', ' ', 'r', 'e', 'd']

/-- `pat2b` minus its first character. -/
def pat2btail : List Char := ['a', 's', 'e', ' ', 'r', 'e', 'd']

/-- First substitution: `(r)at(signal)` → `\g<1>@\g<2>` (the captured `r`
and `signal` keep their case; `at` is replaced by `@`). -/
def sub1 : List Char → List Char
  | c0 :: c1 :: c2 :: c3 :: c4 :: c5 :: c6 :: c7 :: c8 :: rest =>
      if matchCI pat1 (c0 :: c1 :: c2 :: c3 :: c4 :: c5 :: c6 :: c7 :: c8 :: rest) then
        c0 :: '@' :: c3 :: c4 :: c5 :: c6 :: c7 :: c8 :: sub1 rest
      else c0 :: sub1 (c1 :: c2 :: c3 :: c4 :: c5 :: c6 :: c7 :: c8 :: rest)
  | c :: cs => c :: sub1 cs
  | [] => []

/-- Second substitution: `(cod|cas)e (r)e(d)` → `\g<1>3 \g<2>3\g<3>` (the
captured groups keep their case; both `e`s are replaced by `3`). -/
def sub2 : List Char → List Char
  | c0 :: c1 :: c2 :: c3 :: c4 :: c5 :: c6 :: c7 :: rest =>
      if matchCI pat2a (c0 :: c1 :: c2 :: c3 :: c4 :: c5 :: c6 :: c7 :: rest)
          || matchCI pat2b (c0 :: c1 :: c2 :: c3 :: c4 :: c5 :: c6 :: c7 :: rest) then
        c0 :: c1 :: c2 :: '3' :: ' ' :: c5 :: '3' :: c7 :: sub2 rest
      else c0 :: sub2 (c1 :: c2 :: c3 :: c4 :: c5 :: c6 :: c7 :: rest)
  | c :: cs => c :: sub2 cs
  | [] => []

/-- `OutputFilterWrapper.transform`: both substitutions in order. -/
def transform (m : List Char) : List Char := sub2 (sub1 m)

/-- A case-insensitive occurrence of `pat` anywhere in the input. -/
def occursCI (pat : List Char) : List Char → Bool
  | [] => matchCI pat []
  | c :: cs => matchCI pat (c :: cs) || occursCI pat cs

/-! ### Generic matching lemmas -/

theorem occursCI_cons (pat : List Char) (c : Char) (cs : List Char) :
    occursCI pat (c :: cs) = (matchCI pat (c :: cs) || occursCI pat cs) := rfl

theorem matchCI_length {pat : List Char} : ∀ {l : List Char},
    matchCI pat l = true → pat.length ≤ l.length := by
  induction pat with
  | nil => simp
  | cons p ps ih =>
      intro l h
      cases l with
      | nil => exact Bool.noConfusion h
      | cons c cs =>
          simp only [matchCI, Bool.and_eq_true] at h
          simpa [List.length_cons] using Nat.succ_le_succ (ih h.2)

theorem occursCI_length {pat : List Char} : ∀ {l : List Char},
    occursCI pat l = true → pat.length ≤ l.length := by
  intro l
  induction l with
  | nil => intro h; exact matchCI_length h
  | cons c cs ih =>
      intro h
      rw [occursCI_cons] at h
      have h2 : matchCI pat (c :: cs) = true ∨ occursCI pat cs = true := by
        simpa using h
      rcases h2 with h1 | h1
      · exact matchCI_length h1
      · exact le_trans (ih h1) (by simp)

theorem occursCI_tail {pat : List Char} (c : Char) {cs : List Char}
    (h : occursCI pat cs = true) : occursCI pat (c :: cs) = true := by
  rw [occursCI_cons, h, Bool.or_true]

/-- A match fails as soon as one position disagrees (case-insensitively). -/
theorem matchCI_kill : ∀ (p l : List Char) (i : Nat) (q c : Char),
    p[i]? = some q → l[i]? = some c → c.toLower ≠ q → matchCI p l = false := by
  intro p
  induction p with
  | nil => intro l i q c hq; simp at hq
  | cons p0 ps ih =>
      intro l i q c hq hc h
      cases l with
      | nil => rfl
      | cons c0 cs =>
          cases i with
          | zero =>
              simp only [List.getElem?_cons_zero, Option.some.injEq] at hq hc
              show ((c0.toLower == p0) && matchCI ps cs) = false
              rw [hc, hq, beq_eq_false_iff_ne.mpr h, Bool.false_and]
          | succ j =>
              show ((c0.toLower == p0) && matchCI ps cs) = false
              rw [ih cs j q c (by simpa using hq) (by simpa using hc) h,
                Bool.and_false]

/-- Eight leading elements of a list of length at least 8. -/
theorem exists_cons8 {A : Type} : ∀ {cs : List A}, 8 ≤ cs.length →
    ∃ a1 a2 a3 a4 a5 a6 a7 a8 t,
      cs = a1 :: a2 :: a3 :: a4 :: a5 :: a6 :: a7 :: a8 :: t
  | a1 :: a2 :: a3 :: a4 :: a5 :: a6 :: a7 :: a8 :: t, _ =>
      ⟨a1, a2, a3, a4, a5, a6, a7, a8, t, rfl⟩
  | [], h => absurd h (by simp)
  | [_], h => absurd h (by simp)
  | [_, _], h => absurd h (by simp)
  | [_, _, _], h => absurd h (by simp)
  | [_, _, _, _], h => absurd h (by simp)
  | [_, _, _, _, _], h => absurd h (by simp)
  | [_, _, _, _, _, _], h => absurd h (by simp)
  | [_, _, _, _, _, _, _], h => absurd h (by simp)

/-- Seven leading elements of a list of length at least 7. -/
theorem exists_cons7 {A : Type} : ∀ {cs : List A}, 7 ≤ cs.length →
    ∃ a1 a2 a3 a4 a5 a6 a7 t,
      cs = a1 :: a2 :: a3 :: a4 :: a5 :: a6 :: a7 :: t
  | a1 :: a2 :: a3 :: a4 :: a5 :: a6 :: a7 :: t, _ =>
      ⟨a1, a2, a3, a4, a5, a6, a7, t, rfl⟩
  | [], h => absurd h (by simp)
  | [_], h => absurd h (by simp)
  | [_, _], h => absurd h (by simp)
  | [_, _, _], h => absurd h (by simp)
  | [_, _, _, _], h => absurd h (by simp)
  | [_, _, _, _, _], h => absurd h (by simp)
  | [_, _, _, _, _, _], h => absurd h (by simp)

/-! ### Step reductions for the two substitutions -/

theorem pat1_step (c : Char) (cs : List Char) :
    matchCI pat1 (c :: cs) = ((c.toLower == 'r') && matchCI pat1tail cs) := rfl

theorem pat2a_step (c : Char) (cs : List Char) :
    matchCI pat2a (c :: cs) = ((c.toLower == 'c') && matchCI pat2atail cs) := rfl

theorem pat2b_step (c : Char) (cs : List Char) :
    matchCI pat2b (c :: cs) = ((c.toLower == 'c') && matchCI pat2btail cs) := rfl

theorem sub1_eq9 (c0 c1 c2 c3 c4 c5 c6 c7 c8 : Char) (rest : List Char) :
    sub1 (c0 :: c1 :: c2 :: c3 :: c4 :: c5 :: c6 :: c7 :: c8 :: rest)
      = if matchCI pat1 (c0 :: c1 :: c2 :: c3 :: c4 :: c5 :: c6 :: c7 :: c8 :: rest) then
          c0 :: '@' :: c3 :: c4 :: c5 :: c6 :: c7 :: c8 :: sub1 rest
        else c0 :: sub1 (c1 :: c2 :: c3 :: c4 :: c5 :: c6 :: c7 :: c8 :: rest) := rfl

theorem sub2_eq8 (c0 c1 c2 c3 c4 c5 c6 c7 : Char) (rest : List Char) :
    sub2 (c0 :: c1 :: c2 :: c3 :: c4 :: c5 :: c6 :: c7 :: rest)
      = if matchCI pat2a (c0 :: c1 :: c2 :: c3 :: c4 :: c5 :: c6 :: c7 :: rest)
            || matchCI pat2b (c0 :: c1 :: c2 :: c3 :: c4 :: c5 :: c6 :: c7 :: rest) then
          c0 :: c1 :: c2 :: '3' :: ' ' :: c5 :: '3' :: c7 :: sub2 rest
        else c0 :: sub2 (c1 :: c2 :: c3 :: c4 :: c5 :: c6 :: c7 :: rest) := rfl

theorem sub1_short : ∀ (c : Char) (cs : List Char), cs.length < 8 →
    sub1 (c :: cs) = c :: sub1 cs
  | _, [], _ => rfl
  | _, [_], _ => rfl
  | _, [_, _], _ => rfl
  | _, [_, _, _], _ => rfl
  | _, [_, _, _, _], _ => rfl
  | _, [_, _, _, _, _], _ => rfl
  | _, [_, _, _, _, _, _], _ => rfl
  | _, [_, _, _, _, _, _, _], _ => rfl
  | _, _ :: _ :: _ :: _ :: _ :: _ :: _ :: _ :: _, h => absurd h (by simp)

theorem sub2_short : ∀ (c : Char) (cs : List Char), cs.length < 7 →
    sub2 (c :: cs) = c :: sub2 cs
  | _, [], _ => rfl
  | _, [_], _ => rfl
  | _, [_, _], _ => rfl
  | _, [_, _, _], _ => rfl
  | _, [_, _, _, _], _ => rfl
  | _, [_, _, _, _, _], _ => rfl
  | _, [_, _, _, _, _, _], _ => rfl
  | _, _ :: _ :: _ :: _ :: _ :: _ :: _ :: _, h => absurd h (by simp)

theorem sub1_length_le : ∀ l : List Char, (sub1 l).length ≤ l.length := by
  intro l
  induction l using sub1.induct with
  | case1 c0 c1 c2 c3 c4 c5 c6 c7 c8 rest hguard ih =>
      rw [sub1_eq9, if_pos hguard]
      simp only [List.length_cons]
      omega
  | case2 c0 c1 c2 c3 c4 c5 c6 c7 c8 rest hguard ih =>
      rw [sub1_eq9, if_neg hguard]
      simp only [List.length_cons] at ih ⊢
      omega
  | case3 c cs hexc ih =>
      have hlt : cs.length < 8 := by
        by_contra hge
        push_neg at hge
        obtain ⟨a1, a2, a3, a4, a5, a6, a7, a8, t, ht⟩ := exists_cons8 hge
        exact hexc a1 a2 a3 a4 a5 a6 a7 a8 t ht
      rw [sub1_short c cs hlt]
      simp only [List.length_cons]
      omega
  | case4 => simp [sub1]

theorem sub2_length_le : ∀ l : List Char, (sub2 l).length ≤ l.length := by
  intro l
  induction l using sub2.induct with
  | case1 c0 c1 c2 c3 c4 c5 c6 c7 rest hguard ih =>
      rw [sub2_eq8, if_pos hguard]
      simp only [List.length_cons]
      omega
  | case2 c0 c1 c2 c3 c4 c5 c6 c7 rest hguard ih =>
      rw [sub2_eq8, if_neg hguard]
      simp only [List.length_cons] at ih ⊢
      omega
  | case3 c cs hexc ih =>
      have hlt : cs.length < 7 := by
        by_contra hge
        push_neg at hge
        obtain ⟨a1, a2, a3, a4, a5, a6, a7, t, ht⟩ := exists_cons7 hge
        exact hexc a1 a2 a3 a4 a5 a6 a7 t ht
      rw [sub2_short c cs hlt]
      simp only [List.length_cons]
      omega
  | case4 => simp [sub2]

/-! ### Shape bounds from the induction's exclusion hypotheses -/

theorem shortExc8 {cs : List Char}
    (hexc : ∀ (c1 c2 c3 c4 c5 c6 c7 c8 : Char) (rest : List Char),
      cs = c1 :: c2 :: c3 :: c4 :: c5 :: c6 :: c7 :: c8 :: rest → False) :
    cs.length < 8 := by
  by_contra hge
  push_neg at hge
  obtain ⟨a1, a2, a3, a4, a5, a6, a7, a8, t, ht⟩ := exists_cons8 hge
  exact hexc a1 a2 a3 a4 a5 a6 a7 a8 t ht

theorem shortExc7 {cs : List Char}
    (hexc : ∀ (c1 c2 c3 c4 c5 c6 c7 : Char) (rest : List Char),
      cs = c1 :: c2 :: c3 :: c4 :: c5 :: c6 :: c7 :: rest → False) :
    cs.length < 7 := by
  by_contra hge
  push_neg at hge
  obtain ⟨a1, a2, a3, a4, a5, a6, a7, t, ht⟩ := exists_cons7 hge
  exact hexc a1 a2 a3 a4 a5 a6 a7 t ht

theorem orFalseLeft {a b : Bool} (h : (a || b) = false) : a = false := by
  cases a
  · rfl
  · rw [Bool.true_or] at h
    exact Bool.noConfusion h

theorem orFalseRight {a b : Bool} (h : (a || b) = false) : b = false := by
  cases b
  · rfl
  · rw [Bool.or_true] at h
    exact Bool.noConfusion h

/-- Both alternatives of the second pattern force a `c` in front and a `d`
at offset 7. -/
theorem sub2_guard_facts {c0 c1 c2 c3 c4 c5 c6 c7 : Char} {rest : List Char}
    (hguard : (matchCI pat2a (c0 :: c1 :: c2 :: c3 :: c4 :: c5 :: c6 :: c7 :: rest)
      || matchCI pat2b (c0 :: c1 :: c2 :: c3 :: c4 :: c5 :: c6 :: c7 :: rest)) = true) :
    c0.toLower = 'c' ∧ c7.toLower = 'd' := by
  have h2 : matchCI pat2a (c0 :: c1 :: c2 :: c3 :: c4 :: c5 :: c6 :: c7 :: rest) = true
      ∨ matchCI pat2b (c0 :: c1 :: c2 :: c3 :: c4 :: c5 :: c6 :: c7 :: rest) = true := by
    simpa using hguard
  rcases h2 with hh | hh
  · simp only [pat2a, matchCI, Bool.and_eq_true, beq_iff_eq, and_true] at hh
    exact ⟨hh.1, hh.2.2.2.2.2.2.2⟩
  · simp only [pat2b, matchCI, Bool.and_eq_true, beq_iff_eq, and_true] at hh
    exact ⟨hh.1, hh.2.2.2.2.2.2.2⟩

/-! ### A match in the output of a substitution pulls back to its input

The replacement blocks start with a character folding to `r` (`sub1`) or
`c` (`sub2`), so a pattern avoiding that letter cannot start inside a
block: it must lie over copied characters, which are the input's. -/

theorem matchCI_sub1 : ∀ l : List Char, ∀ p : List Char, 'r' ∉ p →
    matchCI p (sub1 l) = true → matchCI p l = true := by
  intro l
  induction l using sub1.induct with
  | case1 c0 c1 c2 c3 c4 c5 c6 c7 c8 rest hguard ih =>
      intro p hp hm
      rw [sub1_eq9, if_pos hguard] at hm
      cases p with
      | nil => rfl
      | cons p0 ps =>
          exfalso
          have hg0 : c0.toLower = 'r' := by
            have h := hguard
            rw [pat1_step] at h
            simp only [Bool.and_eq_true, beq_iff_eq] at h
            exact h.1
          have hm0 : c0.toLower = p0 := by
            rw [show matchCI (p0 :: ps)
                  (c0 :: '@' :: c3 :: c4 :: c5 :: c6 :: c7 :: c8 :: sub1 rest)
                = ((c0.toLower == p0)
                    && matchCI ps ('@' :: c3 :: c4 :: c5 :: c6 :: c7 :: c8 :: sub1 rest))
              from rfl] at hm
            simp only [Bool.and_eq_true, beq_iff_eq] at hm
            exact hm.1
          have hpr : p0 = 'r' := by
            rw [← hm0]
            exact hg0
          subst hpr
          exact hp (List.mem_cons_self _ _)
  | case2 c0 c1 c2 c3 c4 c5 c6 c7 c8 rest hguard ih =>
      intro p hp hm
      rw [sub1_eq9, if_neg hguard] at hm
      cases p with
      | nil => rfl
      | cons p0 ps =>
          rw [show matchCI (p0 :: ps)
                (c0 :: sub1 (c1 :: c2 :: c3 :: c4 :: c5 :: c6 :: c7 :: c8 :: rest))
              = ((c0.toLower == p0)
                  && matchCI ps (sub1 (c1 :: c2 :: c3 :: c4 :: c5 :: c6 :: c7 :: c8 :: rest)))
            from rfl] at hm
          simp only [Bool.and_eq_true] at hm
          have h2 := ih ps (fun hmem => hp (List.mem_cons_of_mem _ hmem)) hm.2
          show ((c0.toLower == p0)
            && matchCI ps (c1 :: c2 :: c3 :: c4 :: c5 :: c6 :: c7 :: c8 :: rest)) = true
          rw [hm.1, h2]
          rfl
  | case3 c cs hexc ih =>
      intro p hp hm
      rw [sub1_short c cs (shortExc8 hexc)] at hm
      cases p with
      | nil => rfl
      | cons p0 ps =>
          rw [show matchCI (p0 :: ps) (c :: sub1 cs)
              = ((c.toLower == p0) && matchCI ps (sub1 cs)) from rfl] at hm
          simp only [Bool.and_eq_true] at hm
          have h2 := ih ps (fun hmem => hp (List.mem_cons_of_mem _ hmem)) hm.2
          show ((c.toLower == p0) && matchCI ps cs) = true
          rw [hm.1, h2]
          rfl
  | case4 =>
      intro p hp hm
      cases p with
      | nil => rfl
      | cons p0 ps => exact Bool.noConfusion hm

theorem matchCI_sub2 : ∀ l : List Char, ∀ p : List Char, 'c' ∉ p →
    matchCI p (sub2 l) = true → matchCI p l = true := by
  intro l
  induction l using sub2.induct with
  | case1 c0 c1 c2 c3 c4 c5 c6 c7 rest hguard ih =>
      intro p hp hm
      rw [sub2_eq8, if_pos hguard] at hm
      cases p with
      | nil => rfl
      | cons p0 ps =>
          exfalso
          have hg0 : c0.toLower = 'c' := (sub2_guard_facts hguard).1
          have hm0 : c0.toLower = p0 := by
            rw [show matchCI (p0 :: ps)
                  (c0 :: c1 :: c2 :: '3' :: ' ' :: c5 :: '3' :: c7 :: sub2 rest)
                = ((c0.toLower == p0)
                    && matchCI ps (c1 :: c2 :: '3' :: ' ' :: c5 :: '3' :: c7 :: sub2 rest))
              from rfl] at hm
            simp only [Bool.and_eq_true, beq_iff_eq] at hm
            exact hm.1
          have hpr : p0 = 'c' := by
            rw [← hm0]
            exact hg0
          subst hpr
          exact hp (List.mem_cons_self _ _)
  | case2 c0 c1 c2 c3 c4 c5 c6 c7 rest hguard ih =>
      intro p hp hm
      rw [sub2_eq8, if_neg hguard] at hm
      cases p with
      | nil => rfl
      | cons p0 ps =>
          rw [show matchCI (p0 :: ps)
                (c0 :: sub2 (c1 :: c2 :: c3 :: c4 :: c5 :: c6 :: c7 :: rest))
              = ((c0.toLower == p0)
                  && matchCI ps (sub2 (c1 :: c2 :: c3 :: c4 :: c5 :: c6 :: c7 :: rest)))
            from rfl] at hm
          simp only [Bool.and_eq_true] at hm
          have h2 := ih ps (fun hmem => hp (List.mem_cons_of_mem _ hmem)) hm.2
          show ((c0.toLower == p0)
            && matchCI ps (c1 :: c2 :: c3 :: c4 :: c5 :: c6 :: c7 :: rest)) = true
          rw [hm.1, h2]
          rfl
  | case3 c cs hexc ih =>
      intro p hp hm
      rw [sub2_short c cs (shortExc7 hexc)] at hm
      cases p with
      | nil => rfl
      | cons p0 ps =>
          rw [show matchCI (p0 :: ps) (c :: sub2 cs)
              = ((c.toLower == p0) && matchCI ps (sub2 cs)) from rfl] at hm
          simp only [Bool.and_eq_true] at hm
          have h2 := ih ps (fun hmem => hp (List.mem_cons_of_mem _ hmem)) hm.2
          show ((c.toLower == p0) && matchCI ps cs) = true
          rw [hm.1, h2]
          rfl
  | case4 =>
      intro p hp hm
      cases p with
      | nil => rfl
      | cons p0 ps => exact Bool.noConfusion hm

/-! ### The outputs of the substitutions are pattern-free -/

theorem sub1_no_pat1 : ∀ l : List Char, occursCI pat1 (sub1 l) = false := by
  intro l
  induction l using sub1.induct with
  | case1 c0 c1 c2 c3 c4 c5 c6 c7 c8 rest hguard ih =>
      rw [sub1_eq9, if_pos hguard]
      have hg : c0.toLower = 'r' ∧ c1.toLower = 'a' ∧ c2.toLower = 't'
          ∧ c3.toLower = 's' ∧ c4.toLower = 'i' ∧ c5.toLower = 'g'
          ∧ c6.toLower = 'n' ∧ c7.toLower = 'a' ∧ c8.toLower = 'l' := by
        have h := hguard
        simp only [pat1, matchCI, Bool.and_eq_true, beq_iff_eq, and_true] at h
        exact h
      obtain ⟨h0, h1, h2, h3, h4, h5, h6, h7, h8⟩ := hg
      have w0 : matchCI pat1
          (c0 :: '@' :: c3 :: c4 :: c5 :: c6 :: c7 :: c8 :: sub1 rest) = false :=
        matchCI_kill _ _ 1 'a' '@' rfl rfl (by decide)
      have w1 : matchCI pat1
          ('@' :: c3 :: c4 :: c5 :: c6 :: c7 :: c8 :: sub1 rest) = false :=
        matchCI_kill _ _ 0 'r' '@' rfl rfl (by decide)
      have w2 : matchCI pat1 (c3 :: c4 :: c5 :: c6 :: c7 :: c8 :: sub1 rest) = false :=
        matchCI_kill _ _ 0 'r' c3 rfl rfl (by rw [h3]; decide)
      have w3 : matchCI pat1 (c4 :: c5 :: c6 :: c7 :: c8 :: sub1 rest) = false :=
        matchCI_kill _ _ 0 'r' c4 rfl rfl (by rw [h4]; decide)
      have w4 : matchCI pat1 (c5 :: c6 :: c7 :: c8 :: sub1 rest) = false :=
        matchCI_kill _ _ 0 'r' c5 rfl rfl (by rw [h5]; decide)
      have w5 : matchCI pat1 (c6 :: c7 :: c8 :: sub1 rest) = false :=
        matchCI_kill _ _ 0 'r' c6 rfl rfl (by rw [h6]; decide)
      have w6 : matchCI pat1 (c7 :: c8 :: sub1 rest) = false :=
        matchCI_kill _ _ 0 'r' c7 rfl rfl (by rw [h7]; decide)
      have w7 : matchCI pat1 (c8 :: sub1 rest) = false :=
        matchCI_kill _ _ 0 'r' c8 rfl (by simp) (by rw [h8]; decide)
      simp only [occursCI_cons, w0, w1, w2, w3, w4, w5, w6, w7, Bool.false_or]
      exact ih
  | case2 c0 c1 c2 c3 c4 c5 c6 c7 c8 rest hguard ih =>
      rw [sub1_eq9, if_neg hguard, occursCI_cons]
      cases hm : matchCI pat1
          (c0 :: sub1 (c1 :: c2 :: c3 :: c4 :: c5 :: c6 :: c7 :: c8 :: rest)) with
      | false => rw [Bool.false_or]; exact ih
      | true =>
          exfalso
          rw [pat1_step] at hm
          simp only [Bool.and_eq_true] at hm
          have htail := matchCI_sub1 _ pat1tail (by decide) hm.2
          apply hguard
          rw [pat1_step, hm.1, Bool.true_and, htail]
  | case3 c cs hexc ih =>
      rw [sub1_short c cs (shortExc8 hexc), occursCI_cons]
      cases hm : matchCI pat1 (c :: sub1 cs) with
      | false => rw [Bool.false_or]; exact ih
      | true =>
          exfalso
          have hlen := matchCI_length hm
          have hsl := sub1_length_le cs
          have hlt := shortExc8 hexc
          simp [pat1] at hlen
          omega
  | case4 => rfl

theorem sub2_no_pat2a : ∀ l : List Char, occursCI pat2a (sub2 l) = false := by
  intro l
  induction l using sub2.induct with
  | case1 c0 c1 c2 c3 c4 c5 c6 c7 rest hguard ih =>
      rw [sub2_eq8, if_pos hguard]
      have f7 : c7.toLower = 'd' := (sub2_guard_facts hguard).2
      have w0 : matchCI pat2a
          (c0 :: c1 :: c2 :: '3' :: ' ' :: c5 :: '3' :: c7 :: sub2 rest) = false :=
        matchCI_kill _ _ 3 'e' '3' rfl rfl (by decide)
      have w1 : matchCI pat2a
          (c1 :: c2 :: '3' :: ' ' :: c5 :: '3' :: c7 :: sub2 rest) = false :=
        matchCI_kill _ _ 2 'd' '3' rfl rfl (by decide)
      have w2 : matchCI pat2a (c2 :: '3' :: ' ' :: c5 :: '3' :: c7 :: sub2 rest) = false :=
        matchCI_kill _ _ 1 'o' '3' rfl rfl (by decide)
      have w3 : matchCI pat2a ('3' :: ' ' :: c5 :: '3' :: c7 :: sub2 rest) = false :=
        matchCI_kill _ _ 0 'c' '3' rfl rfl (by decide)
      have w4 : matchCI pat2a (' ' :: c5 :: '3' :: c7 :: sub2 rest) = false :=
        matchCI_kill _ _ 0 'c' ' ' rfl rfl (by decide)
      have w5 : matchCI pat2a (c5 :: '3' :: c7 :: sub2 rest) = false :=
        matchCI_kill _ _ 1 'o' '3' rfl rfl (by decide)
      have w6 : matchCI pat2a ('3' :: c7 :: sub2 rest) = false :=
        matchCI_kill _ _ 0 'c' '3' rfl rfl (by decide)
      have w7 : matchCI pat2a (c7 :: sub2 rest) = false :=
        matchCI_kill _ _ 0 'c' c7 rfl (by simp) (by rw [f7]; decide)
      simp only [occursCI_cons, w0, w1, w2, w3, w4, w5, w6, w7, Bool.false_or]
      exact ih
  | case2 c0 c1 c2 c3 c4 c5 c6 c7 rest hguard ih =>
      rw [sub2_eq8, if_neg hguard, occursCI_cons]
      cases hm : matchCI pat2a
          (c0 :: sub2 (c1 :: c2 :: c3 :: c4 :: c5 :: c6 :: c7 :: rest)) with
      | false => rw [Bool.false_or]; exact ih
      | true =>
          exfalso
          rw [pat2a_step] at hm
          simp only [Bool.and_eq_true] at hm
          have htail := matchCI_sub2 _ pat2atail (by decide) hm.2
          apply hguard
          rw [pat2a_step, hm.1, htail, Bool.true_and, Bool.true_or]
  | case3 c cs hexc ih =>
      rw [sub2_short c cs (shortExc7 hexc), occursCI_cons]
      cases hm : matchCI pat2a (c :: sub2 cs) with
      | false => rw [Bool.false_or]; exact ih
      | true =>
          exfalso
          have hlen := matchCI_length hm
          have hsl := sub2_length_le cs
          have hlt := shortExc7 hexc
          simp [pat2a] at hlen
          omega
  | case4 => rfl

theorem sub2_no_pat2b : ∀ l : List Char, occursCI pat2b (sub2 l) = false := by
  intro l
  induction l using sub2.induct with
  | case1 c0 c1 c2 c3 c4 c5 c6 c7 rest hguard ih =>
      rw [sub2_eq8, if_pos hguard]
      have f7 : c7.toLower = 'd' := (sub2_guard_facts hguard).2
      have w0 : matchCI pat2b
          (c0 :: c1 :: c2 :: '3' :: ' ' :: c5 :: '3' :: c7 :: sub2 rest) = false :=
        matchCI_kill _ _ 3 'e' '3' rfl rfl (by decide)
      have w1 : matchCI pat2b
          (c1 :: c2 :: '3' :: ' ' :: c5 :: '3' :: c7 :: sub2 rest) = false :=
        matchCI_kill _ _ 2 's' '3' rfl rfl (by decide)
      have w2 : matchCI pat2b (c2 :: '3' :: ' ' :: c5 :: '3' :: c7 :: sub2 rest) = false :=
        matchCI_kill _ _ 1 'a' '3' rfl rfl (by decide)
      have w3 : matchCI pat2b ('3' :: ' ' :: c5 :: '3' :: c7 :: sub2 rest) = false :=
        matchCI_kill _ _ 0 'c' '3' rfl rfl (by decide)
      have w4 : matchCI pat2b (' ' :: c5 :: '3' :: c7 :: sub2 rest) = false :=
        matchCI_kill _ _ 0 'c' ' ' rfl rfl (by decide)
      have w5 : matchCI pat2b (c5 :: '3' :: c7 :: sub2 rest) = false :=
        matchCI_kill _ _ 1 'a' '3' rfl rfl (by decide)
      have w6 : matchCI pat2b ('3' :: c7 :: sub2 rest) = false :=
        matchCI_kill _ _ 0 'c' '3' rfl rfl (by decide)
      have w7 : matchCI pat2b (c7 :: sub2 rest) = false :=
        matchCI_kill _ _ 0 'c' c7 rfl (by simp) (by rw [f7]; decide)
      simp only [occursCI_cons, w0, w1, w2, w3, w4, w5, w6, w7, Bool.false_or]
      exact ih
  | case2 c0 c1 c2 c3 c4 c5 c6 c7 rest hguard ih =>
      rw [sub2_eq8, if_neg hguard, occursCI_cons]
      cases hm : matchCI pat2b
          (c0 :: sub2 (c1 :: c2 :: c3 :: c4 :: c5 :: c6 :: c7 :: rest)) with
      | false => rw [Bool.false_or]; exact ih
      | true =>
          exfalso
          rw [pat2b_step] at hm
          simp only [Bool.and_eq_true] at hm
          have htail := matchCI_sub2 _ pat2btail (by decide) hm.2
          apply hguard
          rw [pat2b_step, hm.1, htail, Bool.true_and, Bool.or_true]
  | case3 c cs hexc ih =>
      rw [sub2_short c cs (shortExc7 hexc), occursCI_cons]
      cases hm : matchCI pat2b (c :: sub2 cs) with
      | false => rw [Bool.false_or]; exact ih
      | true =>
          exfalso
          have hlen := matchCI_length hm
          have hsl := sub2_length_le cs
          have hlt := shortExc7 hexc
          simp [pat2b] at hlen
          omega
  | case4 => rfl

/-- An occurrence of `pat1` in the output of `sub2` pulls back to one in
its input. -/
theorem occursCI_pat1_sub2 : ∀ l : List Char,
    occursCI pat1 (sub2 l) = true → occursCI pat1 l = true := by
  intro l
  induction l using sub2.induct with
  | case1 c0 c1 c2 c3 c4 c5 c6 c7 rest hguard ih =>
      intro h
      rw [sub2_eq8, if_pos hguard] at h
      have f7 : c7.toLower = 'd' := (sub2_guard_facts hguard).2
      have w0 : matchCI pat1
          (c0 :: c1 :: c2 :: '3' :: ' ' :: c5 :: '3' :: c7 :: sub2 rest) = false :=
        matchCI_kill _ _ 3 's' '3' rfl rfl (by decide)
      have w1 : matchCI pat1
          (c1 :: c2 :: '3' :: ' ' :: c5 :: '3' :: c7 :: sub2 rest) = false :=
        matchCI_kill _ _ 2 't' '3' rfl rfl (by decide)
      have w2 : matchCI pat1 (c2 :: '3' :: ' ' :: c5 :: '3' :: c7 :: sub2 rest) = false :=
        matchCI_kill _ _ 1 'a' '3' rfl rfl (by decide)
      have w3 : matchCI pat1 ('3' :: ' ' :: c5 :: '3' :: c7 :: sub2 rest) = false :=
        matchCI_kill _ _ 0 'r' '3' rfl rfl (by decide)
      have w4 : matchCI pat1 (' ' :: c5 :: '3' :: c7 :: sub2 rest) = false :=
        matchCI_kill _ _ 0 'r' ' ' rfl rfl (by decide)
      have w5 : matchCI pat1 (c5 :: '3' :: c7 :: sub2 rest) = false :=
        matchCI_kill _ _ 1 'a' '3' rfl rfl (by decide)
      have w6 : matchCI pat1 ('3' :: c7 :: sub2 rest) = false :=
        matchCI_kill _ _ 0 'r' '3' rfl rfl (by decide)
      have w7 : matchCI pat1 (c7 :: sub2 rest) = false :=
        matchCI_kill _ _ 0 'r' c7 rfl (by simp) (by rw [f7]; decide)
      simp only [occursCI_cons, w0, w1, w2, w3, w4, w5, w6, w7, Bool.false_or] at h
      exact occursCI_tail _ (occursCI_tail _ (occursCI_tail _ (occursCI_tail _
        (occursCI_tail _ (occursCI_tail _ (occursCI_tail _ (occursCI_tail _ (ih h))))))))
  | case2 c0 c1 c2 c3 c4 c5 c6 c7 rest hguard ih =>
      intro h
      rw [sub2_eq8, if_neg hguard, occursCI_cons] at h
      have h2 : matchCI pat1
            (c0 :: sub2 (c1 :: c2 :: c3 :: c4 :: c5 :: c6 :: c7 :: rest)) = true
          ∨ occursCI pat1 (sub2 (c1 :: c2 :: c3 :: c4 :: c5 :: c6 :: c7 :: rest)) = true := by
        simpa using h
      rcases h2 with hm | ho
      · rw [pat1_step] at hm
        simp only [Bool.and_eq_true] at hm
        have htail := matchCI_sub2 _ pat1tail (by decide) hm.2
        rw [occursCI_cons, pat1_step, hm.1, htail, Bool.true_and, Bool.true_or]
      · exact occursCI_tail _ (ih ho)
  | case3 c cs hexc ih =>
      intro h
      rw [sub2_short c cs (shortExc7 hexc), occursCI_cons] at h
      have h2 : matchCI pat1 (c :: sub2 cs) = true
          ∨ occursCI pat1 (sub2 cs) = true := by
        simpa using h
      rcases h2 with hm | ho
      · exfalso
        have hlen := matchCI_length hm
        have hsl := sub2_length_le cs
        have hlt := shortExc7 hexc
        simp [pat1] at hlen
        omega
      · exact occursCI_tail _ (ih ho)
  | case4 =>
      intro h
      exact h

theorem sub2_preserves_no1 (l : List Char) (h : occursCI pat1 l = false) :
    occursCI pat1 (sub2 l) = false := by
  cases hb : occursCI pat1 (sub2 l) with
  | false => rfl
  | true =>
      rw [occursCI_pat1_sub2 l hb] at h
      exact Bool.noConfusion h

/-! ### A substitution with nothing to match is the identity -/

theorem sub1_id : ∀ l : List Char, occursCI pat1 l = false → sub1 l = l := by
  intro l
  induction l using sub1.induct with
  | case1 c0 c1 c2 c3 c4 c5 c6 c7 c8 rest hguard ih =>
      intro h
      rw [occursCI_cons, hguard, Bool.true_or] at h
      exact Bool.noConfusion h
  | case2 c0 c1 c2 c3 c4 c5 c6 c7 c8 rest hguard ih =>
      intro h
      rw [occursCI_cons] at h
      rw [sub1_eq9, if_neg hguard, ih (orFalseRight h)]
  | case3 c cs hexc ih =>
      intro h
      rw [occursCI_cons] at h
      rw [sub1_short c cs (shortExc8 hexc), ih (orFalseRight h)]
  | case4 =>
      intro h
      rfl

theorem sub2_id : ∀ l : List Char, occursCI pat2a l = false →
    occursCI pat2b l = false → sub2 l = l := by
  intro l
  induction l using sub2.induct with
  | case1 c0 c1 c2 c3 c4 c5 c6 c7 rest hguard ih =>
      intro ha hb
      have h2 : matchCI pat2a (c0 :: c1 :: c2 :: c3 :: c4 :: c5 :: c6 :: c7 :: rest) = true
          ∨ matchCI pat2b (c0 :: c1 :: c2 :: c3 :: c4 :: c5 :: c6 :: c7 :: rest) = true := by
        simpa using hguard
      rcases h2 with hh | hh
      · rw [occursCI_cons, hh, Bool.true_or] at ha
        exact Bool.noConfusion ha
      · rw [occursCI_cons, hh, Bool.true_or] at hb
        exact Bool.noConfusion hb
  | case2 c0 c1 c2 c3 c4 c5 c6 c7 rest hguard ih =>
      intro ha hb
      rw [occursCI_cons] at ha hb
      rw [sub2_eq8, if_neg hguard, ih (orFalseRight ha) (orFalseRight hb)]
  | case3 c cs hexc ih =>
      intro ha hb
      rw [occursCI_cons] at ha hb
      rw [sub2_short c cs (shortExc7 hexc), ih (orFalseRight ha) (orFalseRight hb)]
  | case4 =>
      intro ha hb
      rfl

/-- C10: `OutputFilterWrapper.transform` is idempotent — its first
substitution leaves no case-insensitive `ratsignal` occurrence, the second
leaves no `code red`/`case red` occurrence and cannot create a `ratsignal`
one, so a second application of `transform` finds nothing to replace. -/
theorem C10_transform_idempotent (m : List Char) :
    transform (transform m) = transform m := by
  unfold transform
  have hA : occursCI pat1 (sub1 m) = false := sub1_no_pat1 m
  have hB : occursCI pat1 (sub2 (sub1 m)) = false := sub2_preserves_no1 _ hA
  rw [sub1_id _ hB, sub2_id _ (sub2_no_pat2a (sub1 m)) (sub2_no_pat2b (sub1 m))]
